import Mathlib

/-!
# A depth-bounded web crawler (crawler.go): embedding and verified properties

The development embeds the crawl engine of `crawler.go`:

* the link extractor `get_attr` together with the three string-library
  functions it uses (`strings.Split`, `strings.Trim`, `strings.Index`);
* the visitation index, a table `url_index(url unique, visited, path)`, with
  the statements the program executes on it (`insertUrl`, `updateFilename`,
  `checkUrl`, `checkVisited`, the resume query);
* the recursive visit `enqueue`, with the network, the clock, the URL
  library and the hash function as parameters of the environment.

A Go string is a sequence of bytes.  It is represented by a `List Char`, one
element per byte; on ASCII text this is the text itself.

The program builds every SQL statement by splicing the URL, unescaped,
between two double quotes.  A URL without a double quote is read back by the
database as that string, and the statement has its effect on the table.  A
URL that holds a double quote ends the quoted text early.  The model takes
such a statement as refused with a syntax error, as the database does for a
URL like `http://s/?"`, whose quote leaves the text after it unfinished: an
`Exec` changes nothing and a `Query` returns an error, which `checkUrl` and
`checkVisited` answer with `false`.  The theorems that speak of rows assume
URLs without a double quote.  A query that finds no row reports `EOF`,
answered with `false` as well; a `NULL` timestamp is scanned as the zero time.
-/

namespace Crawler

/-- A Go string: its sequence of bytes, one `Char` per byte. -/
abbrev GoString := List Char

/-- The double quote, byte 34. -/
def dquote : Char := Char.ofNat 34

/-- The single quote, byte 39. -/
def squote : Char := Char.ofNat 39

/-! ## String library -/

/-- The loop of `strings.Split(s, sep)` for a non-empty `sep`: `skip` counts the
bytes of a matched separator still to be passed, `acc` holds the bytes of the
current piece, last one first. -/
def splitGo (sep : GoString) : Nat → GoString → GoString → List GoString
  | _, [], acc => [acc.reverse]
  | k + 1, _ :: cs, acc => splitGo sep k cs acc
  | 0, c :: cs, acc =>
    if sep.isPrefixOf (c :: cs) then acc.reverse :: splitGo sep (sep.length - 1) cs []
    else splitGo sep 0 cs (c :: acc)

/-- Go's `strings.Split(s, sep)`: the pieces of `s` between the occurrences of
`sep`, found from left to right without overlap.  With an empty `sep` Go
explodes `s` into its UTF-8 sequences, which on ASCII text are its bytes. -/
def split (s sep : GoString) : List GoString :=
  if sep = [] then s.map (fun c => [c]) else splitGo sep 0 s []

/-- Membership in the cutset `" ="` of the call `strings.Trim(attrs[i], " =")`. -/
def isCut (c : Char) : Bool := c == ' ' || c == '='

/-- Go's `strings.Trim(s, " =")`: `s` without its leading and trailing spaces
and equals signs. -/
def trim (s : GoString) : GoString :=
  ((s.dropWhile isCut).reverse.dropWhile isCut).reverse

/-- The trailing part of `strings.Trim`: the spaces and equals signs at the end
are removed. -/
def stripRight (l : GoString) : GoString := (l.reverse.dropWhile isCut).reverse

/-- Go's `strings.Index(s, quote)` for the one-byte string `quote`: the index
of its first occurrence in `s`, or `-1`. -/
def index : GoString → Char → Int
  | [], _ => -1
  | c :: cs, q => if c = q then 0 else (if index cs q < 0 then -1 else index cs q + 1)

/-! ## Link extractor -/

/-- The `for` loop of `get_attr` over the pieces `attrs[i:]`, with the results
collected so far in `ret`. -/
def get_attr_loop (ret : List GoString) : List GoString → List GoString
  | [] => ret
  | a :: rest =>
    let attr := trim a
    if attr.length < 2 then ret
    else
      match attr with
      | [] => ret
      | quote :: attr1 =>
        if quote = dquote ∨ quote = squote then
          let last := index attr1 quote
          if last ≤ 0 then get_attr_loop ret rest
          else
            let attr2 := attr1.take last.toNat
            if attr2.length > 1 then get_attr_loop (ret ++ [attr2]) rest
            else get_attr_loop ret rest
        else get_attr_loop ret rest

/-- The function `get_attr(body, attr)` of crawler.go: the loop runs over
`strings.Split(body, attr)[1:]`; for a non-empty `attr` the split has at least
one piece, so the slice is defined. -/
def get_attr (body attr : GoString) : List GoString :=
  get_attr_loop [] ((split body attr).drop 1)

/-- The value the scan reads after one occurrence of the attribute name, in
the words of the specification: `seg` is the text from the occurrence to the
next one; after the spaces and equals signs that follow the name comes a
single or double quote, and the value is the text up to the next quote of the
same kind, kept when it has at least two bytes. -/
def quotedValue (seg : GoString) : Option GoString :=
  match seg.dropWhile isCut with
  | [] => none
  | q :: rest =>
    if (q = dquote ∨ q = squote) ∧ q ∈ rest ∧ 2 ≤ (rest.takeWhile (fun c => c != q)).length then
      some (rest.takeWhile (fun c => c != q))
    else none

/-- The scan for the occurrences of `sep` in the words of the specification:
`Scan sep s ps` says that `ps` are the pieces of `s` between the occurrences
of `sep` found from left to right without overlap.  The last piece holds no
occurrence; before it, a piece `p` ends where `sep` occurs first. -/
inductive Scan (sep : GoString) : GoString → List GoString → Prop where
  | last (s : GoString) :
      (∀ i, sep.isPrefixOf (s.drop i) = false) → Scan sep s [s]
  | next (p rest : GoString) (ps : List GoString) :
      (∀ i, i < p.length → sep.isPrefixOf ((p ++ sep ++ rest).drop i) = false) →
      Scan sep rest ps → Scan sep (p ++ sep ++ rest) (p :: ps)

/-- No value is lost to the `break` of `get_attr`: after a piece that is
shorter than two bytes once trimmed, no later piece has a value. -/
def noValueAfterShort : List GoString → Bool
  | [] => true
  | seg :: post =>
    if (trim seg).length < 2 then post.all (fun s => (quotedValue s).isNone)
    else noValueAfterShort post

/-! ## Visitation index -/

/-- One row of the table `url_index ( url text unique not null, visited
datetime, path )`; a `NULL` column is `none`. -/
structure Row where
  url : GoString
  visited : Option Nat
  path : Option GoString
deriving DecidableEq, Repr

/-- The table `url_index`: its rows, in insertion order. -/
abbrev Index := List Row

/-- The `unique` constraint of the column `url`. -/
def Index.unique (db : Index) : Prop := (db.map Row.url).Nodup

instance Index.decideUnique (db : Index) : Decidable db.unique :=
  inferInstanceAs (Decidable (db.map Row.url).Nodup)

/-- The text holds a double quote: spliced between double quotes into a
statement, it ends the quoted text early. -/
def hasQuote (s : GoString) : Bool := s.any (fun c => c == dquote)

/-- The words SQLite reads as a column of `url_index` when they stand between
double quotes in a `where` clause: the three columns and the names of the
row id. -/
def columnNames : List GoString :=
  ["url".toList, "visited".toList, "path".toList, "rowid".toList, "oid".toList,
   "_rowid_".toList]

/-- A URL for which the statements of the program mean what they say: it holds
no double quote, and it is not a word that SQLite reads as a column instead of
a string (in any case of the letters).  The theorems on the index are stated
for such URLs. -/
def plain (url : GoString) : Bool :=
  !hasQuote url && !columnNames.contains (url.map Char.toLower)

/-- The errors an `Exec` on the table can report: the violation of the
`unique` constraint, which `insertUrl` recognises by its message, and any
other error, such as a syntax error. -/
inductive ExecError where
  | notUnique
  | other
deriving DecidableEq, Repr

/-- The statement `insert into url_index values ("` url `", NULL, NULL);`: a
syntax error when `url` holds a double quote; refused with "column url is not
unique" when a row for `url` exists. -/
def execInsert (db : Index) (url : GoString) : Except ExecError Index :=
  if hasQuote url then .error .other
  else if db.any (fun r => r.url == url) then .error .notUnique
  else .ok (db ++ [{ url := url, visited := none, path := none }])

/-- The statement `update url_index set visited=current_timestamp where url="`
url `";`, whose error `insertUrl` does not look at: nothing changes when `url`
holds a double quote. -/
def execTouch (now : Nat) (db : Index) (url : GoString) : Index :=
  if hasQuote url then db
  else db.map (fun r => if r.url = url then { r with visited := some now } else r)

/-- The function `insertUrl(url)` of crawler.go, at the time `now`. -/
def insertUrl (now : Nat) (db : Index) (url : GoString) : Index :=
  match execInsert db url with
  | .ok db1 => db1
  | .error e => if e = .notUnique then execTouch now db url else db

/-- The function `updateFilename(url, filename)`: `update url_index set path="`
filename `" where url="` url `";`; on an error it prints and returns. -/
def updateFilename (db : Index) (url filename : GoString) : Index :=
  if hasQuote url || hasQuote filename then db
  else db.map (fun r => if r.url = url then { r with path := some filename } else r)

/-- The query `select * from url_index where url="` url `";`: the first row
found, or `none` when the query returns an error: a syntax error when `url`
holds a double quote, `EOF` when there is no row. -/
def queryUrl (db : Index) (url : GoString) : Option Row :=
  if hasQuote url then none else db.find? (fun r => r.url == url)

/-- The function `checkUrl(url)`: the query returns a row. -/
def checkUrl (db : Index) (url : GoString) : Bool :=
  match queryUrl db url with
  | none => false
  | some _ => true

/-- The function `checkVisited(url)`: the row scanned for `url` has a
timestamp that is not zero, that is, a `visited` column that is not `NULL`. -/
def checkVisited (db : Index) (url : GoString) : Bool :=
  match queryUrl db url with
  | none => false
  | some r =>
    match r.visited with
    | none => false
    | some _ => true

/-- The resume query of `getUnvisitedUrlsAndEnqueue`: `select url from
url_index where visited is null`. -/
def unvisitedUrls (db : Index) : List GoString :=
  (db.filter (fun r => r.visited.isNone)).map Row.url

/-! ## Environment and program state -/

/-- The outcome of `client.Get(uri)`: a transport error, or a response with
its status code and the body read from it. -/
inductive Resp where
  | failed
  | status (code : Nat) (body : GoString)
deriving DecidableEq, Repr

/-- What the program takes from outside: the network (the response to the
`n`-th request of the run), the clock (`current_timestamp` after `n`
requests), the functions `url.Parse`, `ResolveReference` and `String` of
net/url over a type `U` of parsed URLs, the MD5 hash in hexadecimal, and the
global `BASE_DIR`. -/
structure Env (U : Type) where
  get : Nat → GoString → Resp
  clock : Nat → Nat
  parse : GoString → Option U
  resolve : U → U → U
  str : U → GoString
  md5 : GoString → GoString
  BASE_DIR : GoString

/-- The state of a run: the index, the global map `visited`, and three logs:
the requests issued so far (each with the `depth` argument of the call that
issued it), the recursive calls of `enqueue` made so far by the loop over the
links (each with its `depth` argument), and the files handed to `save_file`
(path and content). -/
structure World where
  db : Index
  visited : List (GoString × Bool)
  fetched : List (GoString × Int)
  visits : List (GoString × Int)
  files : List (GoString × GoString)
deriving DecidableEq, Repr

/-- Reading `visited[uri]` from the global map: `false` for a missing key. -/
def visitedGet (m : List (GoString × Bool)) (uri : GoString) : Bool :=
  match m.find? (fun e => e.1 == uri) with
  | none => false
  | some e => e.2

/-- The assignment `visited[link] = b`. -/
def visitedSet (m : List (GoString × Bool)) (link : GoString) (b : Bool) :
    List (GoString × Bool) :=
  (link, b) :: m

/-- The value of `current_timestamp` in the state `w`. -/
def now {U : Type} (env : Env U) (w : World) : Nat := env.clock w.fetched.length

/-- The function `fixUrl(href, base)`: the empty string when either argument
does not parse. -/
def fixUrl {U : Type} (env : Env U) (href base : GoString) : GoString :=
  match env.parse href with
  | none => []
  | some uri =>
    match env.parse base with
    | none => []
    | some baseUrl => env.str (env.resolve baseUrl uri)

/-- The function `GetMD5Hash`. -/
def GetMD5Hash {U : Type} (env : Env U) (text : GoString) : GoString := env.md5 text

/-- The function `save_file(body, file_path)`, recorded in the state. -/
def save_file (w : World) (body file_path : GoString) : World :=
  { w with files := w.files ++ [(file_path, body)] }

/-- The deferred call `insertUrl(uri)` of `enqueue`, run when it returns. -/
def deferredInsert {U : Type} (env : Env U) (uri : GoString) (w : World) : World :=
  { w with db := insertUrl (now env w) w.db uri }

/-- The body of the loop over `links` in `enqueue` for one element `l`, in a
call of depth `depth`, with the recursive call as the parameter `visit`; the
recursive call is entered in the log `visits`. -/
def visitLink {U : Type} (env : Env U) (visit : World → GoString → Option World)
    (uri : GoString) (depth : Int) (w : World) (l : GoString) : Option World :=
  let link := fixUrl env l uri
  let w1 := if link ≠ uri then { w with visited := visitedSet w.visited link false } else w
  if !checkUrl w1.db link then
    visit { w1 with db := insertUrl (now env w1) w1.db link,
                    visits := w1.visits ++ [(link, depth + 1)] } link
  else some w1

/-- The loop `for i := 0; i < len(links); i++` of `enqueue`. -/
def visitLinks {U : Type} (env : Env U) (visit : World → GoString → Option World)
    (uri : GoString) (depth : Int) : World → List GoString → Option World
  | w, [] => some w
  | w, l :: ls =>
    match visitLink env visit uri depth w l with
    | none => none
    | some w1 => visitLinks env visit uri depth w1 ls

/-- The links of a page: `get_attr(body, "href")` followed by
`get_attr(body, "src")`. -/
def pageLinks (body : GoString) : List GoString :=
  get_attr body "href".toList ++ get_attr body "src".toList

/-- The function `enqueue(uri, queue, depth, MAX_DEPTH)`, with `fuel` bounding
the nesting of its recursive calls; `none` when the bound is reached. -/
def enqueueFuel {U : Type} (env : Env U) :
    Nat → World → GoString → Int → Int → Option World
  | 0, _, _, _, _ => none
  | fuel + 1, w, uri, depth, MAX_DEPTH =>
    if checkUrl w.db uri && checkVisited w.db uri then some w
    else if depth ≥ MAX_DEPTH then some w
    else if !visitedGet w.visited uri then
      let w1 : World := { w with db := insertUrl (now env w) w.db uri }
      let resp := env.get w1.fetched.length uri
      let w2 : World := { w1 with fetched := w1.fetched ++ [(uri, depth)] }
      match resp with
      | .failed => some (deferredInsert env uri w2)
      | .status code body =>
        if code = 200 then
          let file_name := GetMD5Hash env uri
          let w3 : World :=
            { w2 with db := updateFilename w2.db uri (env.BASE_DIR ++ "/".toList ++ file_name) }
          let w4 := save_file w3 body (env.BASE_DIR ++ "/".toList ++ file_name)
          (visitLinks env (fun w5 link => enqueueFuel env fuel w5 link (depth + 1) MAX_DEPTH)
            uri depth w4 (pageLinks body)).map (deferredInsert env uri)
        else some (deferredInsert env uri w2)
    else some w

/-- The function `enqueue(uri, queue, depth, MAX_DEPTH)`: the nesting of the
recursive calls is bounded by `MAX_DEPTH - depth`. -/
def enqueue {U : Type} (env : Env U) (w : World) (uri : GoString) (depth MAX_DEPTH : Int) :
    Option World :=
  enqueueFuel env ((MAX_DEPTH - depth).toNat + 1) w uri depth MAX_DEPTH

/-- The state at the start of a run on an empty index. -/
def emptyWorld : World := { db := [], visited := [], fetched := [], visits := [], files := [] }

/-- The run of `main` on the seed `args[0]` over an empty index: the resume
query yields no URL, then `insertUrl(args[0])` and `enqueue(uri, queue, 0,
MAX_DEPTH)` for the seed received from the queue. -/
def main {U : Type} (env : Env U) (seed : GoString) (MAX_DEPTH : Int) : Option World :=
  enqueue env { emptyWorld with db := insertUrl (now env emptyWorld) emptyWorld.db seed }
    seed 0 MAX_DEPTH

/-! ## What a visit adds to a run -/

/-- The requests of a visit or of a loop over links, from the state `w` to the
state `w1`: the requests `new` are appended to the run, each issued at a depth
in `[lo, hi)`. -/
def Grows (lo hi : Int) (w w1 : World) : Prop :=
  ∃ new : List (GoString × Int), w1.fetched = w.fetched ++ new ∧
    ∀ e ∈ new, lo ≤ e.2 ∧ e.2 < hi

/-- The network and the file names keep the statements well formed: every
link of every page, as `fixUrl` returns it, is a plain URL, and no file name
holds a double quote. -/
def PlainWeb {U : Type} (env : Env U) : Prop :=
  (∀ n u code body l, env.get n u = .status code body → l ∈ pageLinks body →
    plain (fixUrl env l u) = true) ∧
  ∀ u, hasQuote (env.BASE_DIR ++ "/".toList ++ GetMD5Hash env u) = false

/-- The call tree of a visit (`own = some (uri, depth)`) or of a loop over
links (`own = none`), from the state `w` to the state `w1`, over plain URLs:
the recursive calls `calls` and the requests `reqs` are appended to the logs;
a recursive call is made for a URL without a row in `w`, which has a row in
`w1` and is not the URL of `own`; no URL gets two recursive calls; a request
is issued by `own` or by one of the recursive calls, at a depth in
`[lo, hi)`; no URL is requested twice; and no URL loses its row. -/
def Tree (own : Option (GoString × Int)) (lo hi : Int) (w w1 : World) : Prop :=
  ∃ calls reqs : List (GoString × Int),
    w1.visits = w.visits ++ calls ∧ w1.fetched = w.fetched ++ reqs ∧
    (∀ e ∈ calls, checkUrl w.db e.1 = false) ∧
    (∀ e ∈ calls, checkUrl w1.db e.1 = true) ∧
    (∀ e ∈ calls, ∀ o, own = some o → e.1 ≠ o.1) ∧
    (calls.map Prod.fst).Nodup ∧
    (∀ e ∈ reqs, own = some e ∨ e ∈ calls) ∧
    (∀ e ∈ reqs, lo ≤ e.2 ∧ e.2 < hi) ∧
    (reqs.map Prod.fst).Nodup ∧
    (∀ u, checkUrl w.db u = true → checkUrl w1.db u = true)

/-! ## A small web for the concrete runs

The pages are plain ASCII and every reference is an absolute `http` URL, or
starts with a colon; on these the stand-ins below agree with net/url:
`url.Parse` reports "missing protocol scheme" for a reference that starts
with a colon, and an absolute reference resolves to itself, its query kept as
it is written. -/

/-- A stand-in for `url.Parse`: it fails on a leading colon. -/
def demoParse (s : GoString) : Option GoString :=
  match s with
  | ':' :: _ => none
  | _ => some s

/-- Three pages: `http://s/` links to `http://s/a` and to `http://s/l`;
`http://s/a` links to `http://s/l`; `http://s/bad` holds the reference `:x`
followed by a link to `http://s/l`.  Any other request fails. -/
def demoGet (_ : Nat) (uri : GoString) : Resp :=
  if uri = "http://s/".toList then
    .status 200 "<a href=\"http://s/a\"> <a href=\"http://s/l\">".toList
  else if uri = "http://s/a".toList then
    .status 200 "<a href=\"http://s/l\">".toList
  else if uri = "http://s/bad".toList then
    .status 200 "<a href=\":x\"> <a href=\"http://s/l\">".toList
  else .failed

/-- The environment of the concrete runs.  The clock shows `n + 1` after `n`
requests; the hash is replaced by a constant, and no statement below looks at
a file name. -/
def demoEnv : Env GoString where
  get := demoGet
  clock := fun n => n + 1
  parse := demoParse
  resolve := fun _ ref => ref
  str := fun u => u
  md5 := fun _ => "d41d8cd98f00b204e9800998ecf8427e".toList
  BASE_DIR := "tmp".toList

/-- A URL with a double quote in its query: `http://s/?"`. -/
def quotedUrl : GoString := "http://s/?".toList ++ [dquote]

/-- One page, `http://s/q`, which holds the link `http://s/?"` twice, between
single quotes.  Any other request fails. -/
def quoteGet (_ : Nat) (uri : GoString) : Resp :=
  if uri = "http://s/q".toList then
    .status 200 ("<a href='".toList ++ quotedUrl ++ "'> <a href='".toList ++ quotedUrl
      ++ "'>".toList)
  else .failed

/-- The environment of the runs on `http://s/q`. -/
def quoteEnv : Env GoString := { demoEnv with get := quoteGet }

/-- An index in which `http://s/` is recorded as visited. -/
def visitedWorld : World :=
  { db := [{ url := "http://s/".toList, visited := some 7, path := some "tmp/s".toList }],
    visited := [], fetched := [], visits := [], files := [] }

/-- An index in which `http://s/?"` is recorded as visited. -/
def quotedVisitedWorld : World :=
  { db := [{ url := quotedUrl, visited := some 7, path := some "tmp/s".toList }],
    visited := [], fetched := [], visits := [], files := [] }

/-- The state in which `main` calls `enqueue` for the seed `http://s/`: the
seed is recorded, unvisited. -/
def seedWorld : World :=
  { db := [{ url := "http://s/".toList, visited := none, path := none }],
    visited := [], fetched := [], visits := [], files := [] }

/-- An index in which `http://s/` and `http://s/l` are recorded, both unvisited. -/
def recordedWorld : World :=
  { db := [{ url := "http://s/".toList, visited := none, path := none },
           { url := "http://s/l".toList, visited := none, path := none }],
    visited := [], fetched := [], visits := [], files := [] }

/-! ## Lemmas on the string library -/

theorem index_eq (l : GoString) (q : Char) :
    index l q = if q ∈ l then ((l.takeWhile (fun c => c != q)).length : Int) else -1 := by
  induction l with
  | nil => simp [index]
  | cons c cs ih =>
    by_cases hc : c = q
    · subst hc
      simp [index, List.takeWhile]
    · have hq : ¬ q = c := fun e => hc e.symm
      have hb : (c != q) = true := by simpa using hc
      by_cases hm : q ∈ cs
      · rw [if_pos hm] at ih
        have hneg : ¬ index cs q < 0 := by rw [ih]; omega
        simp only [index, hc, if_false, hneg, List.mem_cons, hq, hm, or_true, if_true,
          List.takeWhile, hb, List.length_cons]
        rw [ih]; push_cast; ring
      · rw [if_neg hm] at ih
        simp [index, hc, ih, hq, hm]

theorem take_length_takeWhile (p : Char → Bool) (l : GoString) :
    l.take (l.takeWhile p).length = l.takeWhile p := by
  induction l with
  | nil => rfl
  | cons c cs ih =>
    by_cases h : p c = true
    · simp [List.takeWhile, h, ih]
    · have h2 : p c = false := by simpa using h
      simp [List.takeWhile, h2]

theorem stripRight_append (l : GoString) :
    ∃ t, l = stripRight l ++ t ∧ ∀ c ∈ t, isCut c = true := by
  refine ⟨(l.reverse.takeWhile isCut).reverse, ?_, ?_⟩
  · unfold stripRight
    rw [← List.reverse_append, List.takeWhile_append_dropWhile, List.reverse_reverse]
  · intro c hc
    exact List.mem_takeWhile_imp (List.mem_reverse.1 hc)

theorem mem_stripRight (l : GoString) (q : Char) (hq : isCut q = false) (h : q ∈ l) :
    q ∈ stripRight l := by
  obtain ⟨t, ht, hcut⟩ := stripRight_append l
  rw [ht] at h
  rcases List.mem_append.1 h with h1 | h1
  · exact h1
  · have := hcut q h1
    rw [hq] at this
    cases this

theorem mem_of_mem_stripRight (l : GoString) (q : Char) (h : q ∈ stripRight l) : q ∈ l := by
  obtain ⟨t, ht, _⟩ := stripRight_append l
  rw [ht]
  exact List.mem_append_left _ h

theorem takeWhile_of_mem_append (p : Char → Bool) (a t : GoString)
    (h : ∃ c ∈ a, p c = false) : (a ++ t).takeWhile p = a.takeWhile p := by
  induction a with
  | nil =>
    obtain ⟨c, hc, _⟩ := h
    cases hc
  | cons x xs ih =>
    by_cases hx : p x = true
    · have h2 : ∃ c ∈ xs, p c = false := by
        obtain ⟨c, hc, hpc⟩ := h
        rcases List.mem_cons.1 hc with e | e
        · subst e
          rw [hx] at hpc
          cases hpc
        · exact ⟨c, e, hpc⟩
      simp [List.takeWhile, hx, ih h2]
    · have hx2 : p x = false := by simpa using hx
      simp [List.takeWhile, hx2]

theorem takeWhile_stripRight (l : GoString) (q : Char) (hq : isCut q = false) (h : q ∈ l) :
    (stripRight l).takeWhile (fun c => c != q) = l.takeWhile (fun c => c != q) := by
  obtain ⟨t, ht, _⟩ := stripRight_append l
  have hm := mem_stripRight l q hq h
  conv_rhs => rw [ht]
  rw [takeWhile_of_mem_append _ _ _ ⟨q, hm, by simp⟩]

/-- The text `strings.Trim` returns: after the leading spaces and equals signs,
the first byte stays and the rest loses its trailing spaces and equals signs. -/
theorem trim_eq (seg : GoString) :
    trim seg =
      match seg.dropWhile isCut with
      | [] => []
      | q :: rest => q :: stripRight rest := by
  unfold trim
  cases hd : seg.dropWhile isCut with
  | nil => rfl
  | cons q rest =>
    have hq : ¬ isCut q = true := by
      have h := List.head_dropWhile_not isCut seg (by rw [hd]; simp)
      simpa [hd] using h
    have hq2 : isCut q = false := by simpa using hq
    simp only [List.reverse_cons]
    rw [List.dropWhile_append]
    by_cases he : (List.dropWhile isCut rest.reverse).isEmpty = true
    · have hnil : List.dropWhile isCut rest.reverse = [] := by simpa using he
      simp [stripRight, hnil, List.dropWhile, hq2]
    · simp [stripRight, he]

theorem quote_not_cut (q : Char) (hq : q = dquote ∨ q = squote) : isCut q = false := by
  rcases hq with h | h <;> subst h <;> decide

/-- One turn of the loop of `get_attr` on a piece that does not stop it. -/
theorem get_attr_loop_cons (ret : List GoString) (a : GoString) (rest : List GoString)
    (h : 2 ≤ (trim a).length) :
    get_attr_loop ret (a :: rest) = get_attr_loop (ret ++ (quotedValue a).toList) rest := by
  have ht := trim_eq a
  have hlt : ¬ (trim a).length < 2 := by omega
  rw [get_attr_loop]
  simp only [hlt, if_false]
  unfold quotedValue
  cases hd : a.dropWhile isCut with
  | nil =>
    rw [hd] at ht
    rw [ht] at h
    simp at h
  | cons q r =>
    rw [hd] at ht
    simp only [] at ht
    rw [ht]
    simp only []
    by_cases hq : q = dquote ∨ q = squote
    · have hcut := quote_not_cut q hq
      rw [if_pos hq, index_eq]
      by_cases hm : q ∈ r
      · have hm2 := mem_stripRight r q hcut hm
        have htw := takeWhile_stripRight r q hcut hm
        rw [if_pos hm2, htw]
        by_cases hn : 2 ≤ (r.takeWhile (fun c => c != q)).length
        · have h1 : ¬ ((r.takeWhile (fun c => c != q)).length : Int) ≤ 0 := by omega
          have h2 : (List.take ((r.takeWhile (fun c => c != q)).length : Int).toNat
              (stripRight r)) = r.takeWhile (fun c => c != q) := by
            rw [Int.toNat_ofNat, ← htw, take_length_takeWhile]
          have h3 : (r.takeWhile (fun c => c != q)).length > 1 := by omega
          simp only [h1, if_false, h2, h3, if_true, hq, hm, hn, and_self, Option.toList]
        · by_cases h0 : ((r.takeWhile (fun c => c != q)).length : Int) ≤ 0
          · simp [h0, hn]
          · have h2 : (List.take ((r.takeWhile (fun c => c != q)).length : Int).toNat
                (stripRight r)) = r.takeWhile (fun c => c != q) := by
              rw [Int.toNat_ofNat, ← htw, take_length_takeWhile]
            have h3 : ¬ (r.takeWhile (fun c => c != q)).length > 1 := by omega
            simp only [h0, if_false, h2, h3, hn, and_false, Option.toList,
              List.append_nil]
      · have hm2 : ¬ q ∈ stripRight r := fun hc => hm (mem_of_mem_stripRight r q hc)
        rw [if_neg hm2]
        simp [hm]
    · simp [hq]

/-- The loop of `get_attr` when no piece stops it: one value per piece that
has one, in order. -/
theorem get_attr_loop_eq (segs : List GoString) :
    ∀ ret : List GoString, (∀ seg ∈ segs, 2 ≤ (trim seg).length) →
      get_attr_loop ret segs = ret ++ segs.filterMap quotedValue := by
  induction segs with
  | nil => intro ret _; simp [get_attr_loop]
  | cons a rest ih =>
    intro ret h
    rw [get_attr_loop_cons ret a rest (h a (List.mem_cons_self _ _)),
      ih _ (fun seg hs => h seg (List.mem_cons_of_mem _ hs))]
    cases hq : quotedValue a with
    | none => simp [List.filterMap, hq]
    | some v => simp [List.filterMap, hq]

/-! ## Splitting at a single occurrence -/

theorem splitGo_skip (sep : GoString) :
    ∀ (xs rest acc : GoString), splitGo sep xs.length (xs ++ rest) acc = splitGo sep 0 rest acc := by
  intro xs
  induction xs with
  | nil => intro rest acc; rfl
  | cons x xs ih =>
    intro rest acc
    simp only [List.length_cons, List.cons_append, splitGo]
    exact ih rest acc

theorem splitGo_none (sep : GoString) :
    ∀ (s acc : GoString), (∀ i, sep.isPrefixOf (s.drop i) = false) →
      splitGo sep 0 s acc = [acc.reverse ++ s] := by
  intro s
  induction s with
  | nil => intro acc _; simp [splitGo]
  | cons c cs ih =>
    intro acc h
    have h0 : sep.isPrefixOf (c :: cs) = false := h 0
    rw [splitGo]
    simp only [h0, Bool.false_eq_true, if_false]
    rw [ih (c :: acc) (fun i => h (i + 1))]
    simp

theorem splitGo_single (sep rest : GoString) (hsep : sep ≠ []) :
    ∀ (pre acc : GoString),
      (∀ i, sep.isPrefixOf ((pre ++ sep ++ rest).drop i) = true → i = pre.length) →
      splitGo sep 0 (pre ++ sep ++ rest) acc = [acc.reverse ++ pre, rest] := by
  intro pre
  induction pre with
  | nil =>
    intro acc h
    obtain ⟨c, sep1, hc⟩ := List.exists_cons_of_ne_nil hsep
    have hpre : sep.isPrefixOf (sep ++ rest) = true := by
      rw [List.isPrefixOf_iff_prefix]; exact List.prefix_append _ _
    have hnone : ∀ i, sep.isPrefixOf (rest.drop i) = false := by
      intro i
      by_contra hcon
      have ht : sep.isPrefixOf (rest.drop i) = true := by simpa using hcon
      have := h (sep.length + i) (by
        simp only [List.nil_append]
        rw [← List.drop_drop, List.drop_left]
        exact ht)
      have hl : 0 < sep.length := List.length_pos.2 hsep
      simp only [List.length_nil] at this
      omega
    have hstep : splitGo sep 0 (sep ++ rest) acc =
        acc.reverse :: splitGo sep (sep.length - 1) (sep1 ++ rest) [] := by
      conv_lhs => rw [hc]
      rw [List.cons_append, splitGo]
      rw [← List.cons_append, ← hc]
      simp only [hpre, if_true]
    simp only [List.nil_append, List.append_nil]
    rw [hstep]
    have hl : sep.length - 1 = sep1.length := by rw [hc]; simp
    rw [hl, splitGo_skip, splitGo_none sep rest [] hnone]
    simp
  | cons p pre ih =>
    intro acc h
    have h0 : sep.isPrefixOf (p :: (pre ++ sep ++ rest)) = false := by
      by_contra hcon
      have ht : sep.isPrefixOf (p :: (pre ++ sep ++ rest)) = true := by simpa using hcon
      have := h 0 (by simpa using ht)
      simp at this
    have hshift : ∀ i, sep.isPrefixOf ((pre ++ sep ++ rest).drop i) = true → i = pre.length := by
      intro i hi
      have := h (i + 1) (by simpa using hi)
      simpa using this
    have e : (p :: pre) ++ sep ++ rest = p :: (pre ++ sep ++ rest) := by simp
    rw [e, splitGo]
    simp only [h0, Bool.false_eq_true, if_false]
    rw [ih (p :: acc) hshift]
    simp

/-- Splitting at the only occurrence of a separator gives the text before it
and the text after it. -/
theorem split_single (sep pre rest : GoString) (hsep : sep ≠ [])
    (h : ∀ i, sep.isPrefixOf ((pre ++ sep ++ rest).drop i) = true → i = pre.length) :
    split (pre ++ sep ++ rest) sep = [pre, rest] := by
  unfold split
  rw [if_neg hsep, splitGo_single sep rest hsep pre [] h]
  simp

/-! ## The loop of `get_attr` and its `break` -/

theorem quotedValue_short (seg : GoString) (h : (trim seg).length < 2) :
    quotedValue seg = none := by
  rw [trim_eq] at h
  unfold quotedValue
  cases hd : seg.dropWhile isCut with
  | nil => rfl
  | cons q r =>
    rw [hd] at h
    simp only [List.length_cons] at h
    have hnil : stripRight r = [] := List.length_eq_zero.1 (by omega)
    simp only []
    rw [if_neg]
    rintro ⟨hq, hm, _⟩
    have := mem_stripRight r q (quote_not_cut q hq) hm
    rw [hnil] at this
    cases this

theorem get_attr_loop_short (ret : List GoString) (a : GoString) (rest : List GoString)
    (h : (trim a).length < 2) : get_attr_loop ret (a :: rest) = ret := by
  rw [get_attr_loop]
  simp only [h, if_true]

/-- The loop of `get_attr`: one value per piece that has one, in order, up to
the first piece that stops it. -/
theorem get_attr_loop_exact (segs : List GoString) :
    ∀ ret : List GoString,
      get_attr_loop ret segs =
        ret ++ (segs.takeWhile (fun s => decide (2 ≤ (trim s).length))).filterMap quotedValue := by
  induction segs with
  | nil => intro ret; simp [get_attr_loop]
  | cons a rest ih =>
    intro ret
    by_cases h : 2 ≤ (trim a).length
    · rw [get_attr_loop_cons ret a rest h, ih, List.takeWhile_cons_of_pos (by simpa using h)]
      cases hq : quotedValue a with
      | none => simp [List.filterMap, hq]
      | some v => simp [List.filterMap, hq]
    · rw [get_attr_loop_short ret a rest (by omega),
        List.takeWhile_cons_of_neg (by simpa using h)]
      simp

theorem filterMap_noValueAfterShort (segs : List GoString)
    (h : noValueAfterShort segs = true) :
    (segs.takeWhile (fun s => decide (2 ≤ (trim s).length))).filterMap quotedValue =
      segs.filterMap quotedValue := by
  induction segs with
  | nil => rfl
  | cons a rest ih =>
    by_cases hs : (trim a).length < 2
    · have hnone : ∀ s ∈ rest, quotedValue s = none := by
        intro s hsm
        simp only [noValueAfterShort, hs, if_true, List.all_eq_true] at h
        have := h s hsm
        cases hq : quotedValue s with
        | none => rfl
        | some v => rw [hq] at this; cases this
      have hrest : rest.filterMap quotedValue = [] := by
        rw [List.filterMap_eq_nil_iff]; exact hnone
      rw [List.takeWhile_cons_of_neg (by simp; omega)]
      simp [List.filterMap, quotedValue_short a hs, hrest]
    · have hl : 2 ≤ (trim a).length := by omega
      simp only [noValueAfterShort, hs, if_false] at h
      rw [List.takeWhile_cons_of_pos (by simpa using hl)]
      cases hq : quotedValue a with
      | none => simp [List.filterMap, hq, ih h]
      | some v => simp [List.filterMap, hq, ih h]

/-! ## `strings.Split` computes the scan -/

theorem isPrefixOf_nil_right (sep : GoString) (hsep : sep ≠ []) :
    sep.isPrefixOf [] = false := by
  cases sep with
  | nil => exact absurd rfl hsep
  | cons c cs => rfl

theorem scan_splitGo (sep : GoString) (hsep : sep ≠ []) :
    ∀ (n : Nat) (s acc : GoString), s.length ≤ n →
      (∀ i, i < acc.length → sep.isPrefixOf ((acc.reverse ++ s).drop i) = false) →
      Scan sep (acc.reverse ++ s) (splitGo sep 0 s acc) := by
  intro n
  induction n with
  | zero =>
    intro s acc hn hacc
    have hs : s = [] := List.length_eq_zero.1 (by omega)
    subst hs
    simp only [splitGo, List.append_nil] at hacc ⊢
    apply Scan.last
    intro i
    by_cases hi : i < acc.length
    · exact hacc i hi
    · rw [List.drop_of_length_le (by simp; omega)]
      exact isPrefixOf_nil_right sep hsep
  | succ m ih =>
    intro s acc hn hacc
    cases s with
    | nil =>
      simp only [splitGo, List.append_nil] at hacc ⊢
      apply Scan.last
      intro i
      by_cases hi : i < acc.length
      · exact hacc i hi
      · rw [List.drop_of_length_le (by simp; omega)]
        exact isPrefixOf_nil_right sep hsep
    | cons c cs =>
      by_cases hp : sep.isPrefixOf (c :: cs) = true
      · obtain ⟨rest, hrest⟩ := List.isPrefixOf_iff_prefix.1 hp
        obtain ⟨c1, sep1, hc⟩ := List.exists_cons_of_ne_nil hsep
        have hcs : cs = sep1 ++ rest := by
          rw [hc, List.cons_append] at hrest
          exact (List.cons.inj hrest).2.symm
        have hlen : rest.length ≤ m := by
          have : cs.length ≤ m := by simpa using hn
          rw [hcs, List.length_append] at this
          omega
        have hstep : splitGo sep 0 (c :: cs) acc = acc.reverse :: splitGo sep 0 rest [] := by
          rw [splitGo]
          simp only [hp, if_true]
          have hl : sep.length - 1 = sep1.length := by rw [hc]; simp
          rw [hl, hcs, splitGo_skip]
        have hrec := ih rest [] hlen (by intro i hi; simp at hi)
        simp only [List.reverse_nil, List.nil_append] at hrec
        rw [hstep, ← hrest, ← List.append_assoc]
        refine Scan.next acc.reverse rest _ ?_ hrec
        intro i hi
        have := hacc i (by simpa using hi)
        rw [← hrest, ← List.append_assoc] at this
        exact this
      · have hp2 : sep.isPrefixOf (c :: cs) = false := Bool.eq_false_iff.2 hp
        have hstep : splitGo sep 0 (c :: cs) acc = splitGo sep 0 cs (c :: acc) := by
          rw [splitGo]
          simp only [hp2, Bool.false_eq_true, if_false]
        have e : (c :: acc).reverse ++ cs = acc.reverse ++ c :: cs := by simp
        rw [hstep, ← e]
        refine ih cs (c :: acc) (by simpa using hn) ?_
        intro i hi
        rw [e]
        by_cases hlt : i < acc.length
        · exact hacc i hlt
        · have hi2 : i = acc.reverse.length := by
            simp only [List.length_cons] at hi
            simp only [List.length_reverse]
            omega
          rw [hi2, List.drop_left]
          exact hp2

/-- The pieces `strings.Split` returns for a non-empty separator are the pieces
of the scan. -/
theorem scan_split (sep s : GoString) (hsep : sep ≠ []) : Scan sep s (split s sep) := by
  unfold split
  rw [if_neg hsep]
  have := scan_splitGo sep hsep s.length s [] (le_refl _) (by intro i hi; simp at hi)
  simpa using this

theorem isPrefixOf_drop_left (sep p rest : GoString) :
    sep.isPrefixOf ((p ++ sep ++ rest).drop p.length) = true := by
  rw [List.append_assoc, List.drop_left, List.isPrefixOf_iff_prefix]
  exact List.prefix_append _ _

/-- The scan has one result. -/
theorem Scan.unique (sep : GoString) :
    ∀ (s : GoString) (ps : List GoString), Scan sep s ps →
      ∀ qs, Scan sep s qs → qs = ps := by
  intro s ps h
  induction h with
  | last s hno =>
    intro qs hq
    cases hq with
    | last _ _ => rfl
    | next p rest qs1 hfirst hrest =>
      have := hno p.length
      rw [isPrefixOf_drop_left] at this
      cases this
  | next p rest ps hfirst hrest ih =>
    intro qs hq
    generalize hs : p ++ sep ++ rest = s at hq
    cases hq with
    | last _ hno =>
      have := hno p.length
      rw [← hs, isPrefixOf_drop_left] at this
      cases this
    | next p1 rest1 qs1 hfirst1 hrest1 =>
      have hlen : p.length = p1.length := by
        rcases Nat.lt_trichotomy p.length p1.length with hlt | heq | hgt
        · have := hfirst1 p.length hlt
          rw [← hs, isPrefixOf_drop_left] at this
          cases this
        · exact heq
        · have := hfirst p1.length hgt
          rw [hs, isPrefixOf_drop_left] at this
          cases this
      rw [List.append_assoc, List.append_assoc] at hs
      obtain ⟨hp, htail⟩ := List.append_inj hs hlen
      have hr : rest = rest1 := List.append_cancel_left htail
      subst hp
      subst hr
      rw [ih qs1 hrest1]

/-! ## Lemmas on the index -/

theorem plain_noQuote (u : GoString) (h : plain u = true) : hasQuote u = false := by
  unfold plain at h
  rw [Bool.and_eq_true] at h
  simpa using h.1

theorem checkUrl_eq_isSome (db : Index) (u : GoString) :
    checkUrl db u = (queryUrl db u).isSome := by
  unfold checkUrl
  cases queryUrl db u <;> rfl

theorem checkUrl_iff (db : Index) (u : GoString) :
    checkUrl db u = true ↔ hasQuote u = false ∧ u ∈ db.map Row.url := by
  rw [checkUrl_eq_isSome]
  unfold queryUrl
  by_cases hq : hasQuote u = true
  · simp [hq]
  · have hq2 : hasQuote u = false := by simpa using hq
    simp only [hq2, Bool.false_eq_true, if_false, true_and]
    rw [List.find?_isSome, List.mem_map]
    constructor
    · rintro ⟨r, hr, he⟩
      exact ⟨r, hr, by simpa using he⟩
    · rintro ⟨r, hr, he⟩
      exact ⟨r, hr, by simpa using he⟩

theorem any_url_iff (db : Index) (u : GoString) :
    db.any (fun r => r.url == u) = true ↔ u ∈ db.map Row.url := by
  rw [List.any_eq_true, List.mem_map]
  constructor
  · rintro ⟨r, hr, he⟩
    exact ⟨r, hr, by simpa using he⟩
  · rintro ⟨r, hr, he⟩
    exact ⟨r, hr, by simpa using he⟩

theorem urls_execTouch (t : Nat) (db : Index) (u : GoString) :
    (execTouch t db u).map Row.url = db.map Row.url := by
  unfold execTouch
  split
  · rfl
  · rw [List.map_map]
    apply List.map_congr_left
    intro r _
    by_cases h : r.url = u <;> simp [h]

theorem urls_updateFilename (db : Index) (u f : GoString) :
    (updateFilename db u f).map Row.url = db.map Row.url := by
  unfold updateFilename
  split
  · rfl
  · rw [List.map_map]
    apply List.map_congr_left
    intro r _
    by_cases h : r.url = u <;> simp [h]

/-- A URL with a double quote: `insertUrl` changes nothing. -/
theorem insertUrl_quoted (t : Nat) (db : Index) (u : GoString) (hq : hasQuote u = true) :
    insertUrl t db u = db := by
  simp [insertUrl, execInsert, hq]

theorem insertUrl_of_mem (t : Nat) (db : Index) (u : GoString) (hq : hasQuote u = false)
    (h : u ∈ db.map Row.url) :
    insertUrl t db u =
      db.map (fun r => if r.url = u then { r with visited := some t } else r) := by
  have h1 := (any_url_iff db u).2 h
  simp [insertUrl, execInsert, execTouch, hq, h1]

theorem insertUrl_of_not_mem (t : Nat) (db : Index) (u : GoString) (hq : hasQuote u = false)
    (h : u ∉ db.map Row.url) :
    insertUrl t db u = db ++ [{ url := u, visited := none, path := none }] := by
  have h1 : db.any (fun r => r.url == u) = false := by
    rw [← Bool.not_eq_true, any_url_iff]; exact h
  simp [insertUrl, execInsert, hq, h1]

theorem mem_urls_insertUrl (t : Nat) (db : Index) (u v : GoString) (hq : hasQuote u = false) :
    v ∈ (insertUrl t db u).map Row.url ↔ v = u ∨ v ∈ db.map Row.url := by
  by_cases h : u ∈ db.map Row.url
  · have e : (insertUrl t db u).map Row.url = db.map Row.url := by
      rw [insertUrl_of_mem t db u hq h, List.map_map]
      apply List.map_congr_left
      intro r _
      by_cases h2 : r.url = u <;> simp [h2]
    rw [e]
    constructor
    · intro hv; exact Or.inr hv
    · rintro (rfl | hv)
      · exact h
      · exact hv
  · rw [insertUrl_of_not_mem t db u hq h, List.map_append, List.mem_append, List.map_singleton,
      List.mem_singleton]
    tauto

theorem mem_urls_insertUrl_of_mem (t : Nat) (db : Index) (u v : GoString)
    (h : v ∈ db.map Row.url) : v ∈ (insertUrl t db u).map Row.url := by
  by_cases hq : hasQuote u = true
  · rw [insertUrl_quoted t db u hq]; exact h
  · exact (mem_urls_insertUrl t db u v (by simpa using hq)).2 (Or.inr h)

theorem checkUrl_insertUrl_self (t : Nat) (db : Index) (u : GoString)
    (hq : hasQuote u = false) : checkUrl (insertUrl t db u) u = true :=
  (checkUrl_iff _ _).2 ⟨hq, (mem_urls_insertUrl t db u u hq).2 (Or.inl rfl)⟩

theorem checkUrl_insertUrl_mono (t : Nat) (db : Index) (u v : GoString)
    (h : checkUrl db v = true) : checkUrl (insertUrl t db u) v = true := by
  obtain ⟨hq, hm⟩ := (checkUrl_iff _ _).1 h
  exact (checkUrl_iff _ _).2 ⟨hq, mem_urls_insertUrl_of_mem t db u v hm⟩

theorem checkUrl_updateFilename (db : Index) (u f v : GoString) :
    checkUrl (updateFilename db u f) v = checkUrl db v := by
  rw [Bool.eq_iff_iff, checkUrl_iff, checkUrl_iff, urls_updateFilename]

theorem checkUrl_false_of_mono {db db1 : Index} {v : GoString}
    (hm : ∀ u, checkUrl db u = true → checkUrl db1 u = true)
    (h : checkUrl db1 v = false) : checkUrl db v = false := by
  by_contra hc
  have := hm v (by simpa using hc)
  rw [h] at this
  cases this

/-! ## Every visit returns, and its requests stay below `MAX_DEPTH` -/

theorem Grows.of_same_fetched (lo hi : Int) (w w1 : World) (hf : w1.fetched = w.fetched) :
    Grows lo hi w w1 :=
  ⟨[], by simp [hf], by simp⟩

theorem Grows.trans {lo hi : Int} {w w1 w2 : World}
    (h1 : Grows lo hi w w1) (h2 : Grows lo hi w1 w2) : Grows lo hi w w2 := by
  obtain ⟨n1, hf1, hr1⟩ := h1
  obtain ⟨n2, hf2, hr2⟩ := h2
  refine ⟨n1 ++ n2, by rw [hf2, hf1, List.append_assoc], ?_⟩
  intro e he
  rcases List.mem_append.1 he with h | h
  · exact hr1 e h
  · exact hr2 e h

theorem visitLink_grows_core {U : Type} (env : Env U)
    (visit : World → GoString → Option World) (depth lo hi : Int)
    (hv : ∀ w l, ∃ w1, visit w l = some w1 ∧ Grows lo hi w w1)
    (w w0 : World) (link : GoString) (hfe : w0.fetched = w.fetched) :
    ∃ w1, (if !checkUrl w0.db link then
        visit { w0 with db := insertUrl (now env w0) w0.db link,
                        visits := w0.visits ++ [(link, depth + 1)] } link
      else some w0) = some w1 ∧ Grows lo hi w w1 := by
  by_cases hc : checkUrl w0.db link = true
  · simp only [hc, Bool.not_true, Bool.false_eq_true, if_false]
    exact ⟨w0, rfl, Grows.of_same_fetched _ _ _ _ hfe⟩
  · have hc2 : checkUrl w0.db link = false := by simpa using hc
    simp only [hc2, Bool.not_false, if_true]
    obtain ⟨w1, hw1, n, hf, hr⟩ :=
      hv { w0 with db := insertUrl (now env w0) w0.db link,
                   visits := w0.visits ++ [(link, depth + 1)] } link
    exact ⟨w1, hw1, n, by rw [hf, ← hfe], hr⟩

theorem visitLink_grows {U : Type} (env : Env U) (visit : World → GoString → Option World)
    (uri : GoString) (depth lo hi : Int)
    (hv : ∀ w l, ∃ w1, visit w l = some w1 ∧ Grows lo hi w w1)
    (w : World) (l : GoString) :
    ∃ w1, visitLink env visit uri depth w l = some w1 ∧ Grows lo hi w w1 := by
  unfold visitLink
  refine visitLink_grows_core env visit depth lo hi hv w _ (fixUrl env l uri) ?_
  split <;> rfl

theorem visitLinks_grows {U : Type} (env : Env U) (visit : World → GoString → Option World)
    (uri : GoString) (depth lo hi : Int)
    (hv : ∀ w l, ∃ w1, visit w l = some w1 ∧ Grows lo hi w w1) :
    ∀ (links : List GoString) (w : World),
      ∃ w1, visitLinks env visit uri depth w links = some w1 ∧ Grows lo hi w w1 := by
  intro links
  induction links with
  | nil =>
    intro w
    exact ⟨w, rfl, Grows.of_same_fetched _ _ _ _ rfl⟩
  | cons l ls ih =>
    intro w
    obtain ⟨w1, h1, g1⟩ := visitLink_grows env visit uri depth lo hi hv w l
    obtain ⟨w2, h2, g2⟩ := ih w1
    refine ⟨w2, ?_, Grows.trans g1 g2⟩
    simp only [visitLinks, h1]
    exact h2

/-- The requests of a visit that fetches `uri`: the request for `uri`
followed by those of the loop over its links. -/
theorem Grows.request_then_loop (uri : GoString) (depth MAX_DEPTH : Int) (w w4 w5 w6 : World)
    (hd : depth < MAX_DEPTH)
    (hf4 : w4.fetched = w.fetched ++ [(uri, depth)])
    (hloop : Grows (depth + 1) MAX_DEPTH w4 w5)
    (hf6 : w6.fetched = w5.fetched) :
    Grows depth MAX_DEPTH w w6 := by
  obtain ⟨n, hf, hr⟩ := hloop
  refine ⟨(uri, depth) :: n, ?_, ?_⟩
  · rw [hf6, hf, hf4, List.append_assoc]; rfl
  · intro e he
    rcases List.mem_cons.1 he with h | h
    · subst h; exact ⟨le_refl _, hd⟩
    · have := hr e h
      exact ⟨by omega, this.2⟩

/-- A visit that passes the three checks of `enqueue`: what it computes. -/
theorem enqueueFuel_step {U : Type} (env : Env U) (fuel : Nat) (w : World) (uri : GoString)
    (depth MAX_DEPTH : Int)
    (hadm : ¬ (checkUrl w.db uri = true ∧ checkVisited w.db uri = true))
    (hd : depth < MAX_DEPTH) (hmap : visitedGet w.visited uri = false) :
    enqueueFuel env (fuel + 1) w uri depth MAX_DEPTH =
      match env.get w.fetched.length uri with
      | .failed =>
        some (deferredInsert env uri
          { w with db := insertUrl (now env w) w.db uri,
                   fetched := w.fetched ++ [(uri, depth)] })
      | .status code body =>
        if code = 200 then
          (visitLinks env (fun w5 link => enqueueFuel env fuel w5 link (depth + 1) MAX_DEPTH)
            uri depth
            (save_file
              { w with db := updateFilename (insertUrl (now env w) w.db uri) uri
                          (env.BASE_DIR ++ "/".toList ++ GetMD5Hash env uri),
                       fetched := w.fetched ++ [(uri, depth)] }
              body (env.BASE_DIR ++ "/".toList ++ GetMD5Hash env uri))
            (pageLinks body)).map (deferredInsert env uri)
        else
          some (deferredInsert env uri
            { w with db := insertUrl (now env w) w.db uri,
                     fetched := w.fetched ++ [(uri, depth)] }) := by
  have h1 : ¬ ((checkUrl w.db uri && checkVisited w.db uri) = true) := by
    simpa using hadm
  have h2 : ¬ depth ≥ MAX_DEPTH := by omega
  rw [enqueueFuel]
  simp only [h1, h2, hmap, if_false, Bool.not_false, if_true]
  rfl

/-- A visit rejected by one of the three checks of `enqueue`. -/
theorem enqueueFuel_reject {U : Type} (env : Env U) (fuel : Nat) (w : World) (uri : GoString)
    (depth MAX_DEPTH : Int)
    (h : (checkUrl w.db uri = true ∧ checkVisited w.db uri = true) ∨ MAX_DEPTH ≤ depth ∨
      visitedGet w.visited uri = true) :
    enqueueFuel env (fuel + 1) w uri depth MAX_DEPTH = some w := by
  rw [enqueueFuel]
  split_ifs with h1 h2 h3
  · rfl
  · rfl
  · exfalso
    rcases h with h | h | h
    · exact h1 (by simp [h.1, h.2])
    · exact h2 h
    · rw [h] at h3
      simp at h3
  · rfl

/-- The three checks of `enqueue` as one case distinction. -/
theorem enqueue_checks (w : World) (uri : GoString) (depth MAX_DEPTH : Int) :
    ((checkUrl w.db uri = true ∧ checkVisited w.db uri = true) ∨ MAX_DEPTH ≤ depth ∨
      visitedGet w.visited uri = true) ∨
    (¬ (checkUrl w.db uri = true ∧ checkVisited w.db uri = true) ∧ depth < MAX_DEPTH ∧
      visitedGet w.visited uri = false) := by
  by_cases h1 : checkUrl w.db uri = true ∧ checkVisited w.db uri = true
  · exact Or.inl (Or.inl h1)
  · by_cases h2 : MAX_DEPTH ≤ depth
    · exact Or.inl (Or.inr (Or.inl h2))
    · by_cases h3 : visitedGet w.visited uri = true
      · exact Or.inl (Or.inr (Or.inr h3))
      · exact Or.inr ⟨h1, by omega, by simpa using h3⟩

/-- Every visit returns when the fuel exceeds `MAX_DEPTH - depth`, and its
requests are issued at depths from `depth` to below `MAX_DEPTH`. -/
theorem enqueueFuel_grows {U : Type} (env : Env U) (MAX_DEPTH : Int) :
    ∀ (fuel : Nat) (w : World) (uri : GoString) (depth : Int),
      (MAX_DEPTH - depth).toNat < fuel →
      ∃ w1, enqueueFuel env fuel w uri depth MAX_DEPTH = some w1 ∧
        Grows depth MAX_DEPTH w w1 := by
  intro fuel
  induction fuel with
  | zero => intro w uri depth h; omega
  | succ fuel ih =>
    intro w uri depth hfuel
    rcases enqueue_checks w uri depth MAX_DEPTH with hrej | ⟨hadm, hd, hmap⟩
    · rw [enqueueFuel_reject env fuel w uri depth MAX_DEPTH hrej]
      exact ⟨w, rfl, Grows.of_same_fetched _ _ _ _ rfl⟩
    · rw [enqueueFuel_step env fuel w uri depth MAX_DEPTH hadm hd hmap]
      cases hresp : env.get w.fetched.length uri with
      | failed =>
        refine ⟨_, rfl, ?_⟩
        exact Grows.request_then_loop uri depth MAX_DEPTH w
          { w with db := insertUrl (now env w) w.db uri,
                   fetched := w.fetched ++ [(uri, depth)] }
          { w with db := insertUrl (now env w) w.db uri,
                   fetched := w.fetched ++ [(uri, depth)] } _ hd rfl
          (Grows.of_same_fetched _ _ _ _ rfl) rfl
      | status code body =>
        simp only []
        split_ifs with hcode
        · obtain ⟨w5, hw5, g5⟩ := visitLinks_grows env
            (fun w5 link => enqueueFuel env fuel w5 link (depth + 1) MAX_DEPTH) uri depth
            (depth + 1) MAX_DEPTH
            (fun w0 l => ih w0 l (depth + 1) (by omega))
            (pageLinks body)
            (save_file
              { w with db := updateFilename (insertUrl (now env w) w.db uri) uri
                          (env.BASE_DIR ++ "/".toList ++ GetMD5Hash env uri),
                       fetched := w.fetched ++ [(uri, depth)] }
              body (env.BASE_DIR ++ "/".toList ++ GetMD5Hash env uri))
          rw [hw5]
          refine ⟨_, rfl, ?_⟩
          exact Grows.request_then_loop uri depth MAX_DEPTH w _ w5 _ hd rfl g5 rfl
        · refine ⟨_, rfl, ?_⟩
          exact Grows.request_then_loop uri depth MAX_DEPTH w
            { w with db := insertUrl (now env w) w.db uri,
                     fetched := w.fetched ++ [(uri, depth)] }
            { w with db := insertUrl (now env w) w.db uri,
                     fetched := w.fetched ++ [(uri, depth)] } _ hd rfl
            (Grows.of_same_fetched _ _ _ _ rfl) rfl

/-- The function `enqueue` returns. -/
theorem enqueue_grows {U : Type} (env : Env U) (w : World) (uri : GoString)
    (depth MAX_DEPTH : Int) :
    ∃ w1, enqueue env w uri depth MAX_DEPTH = some w1 ∧ Grows depth MAX_DEPTH w w1 :=
  enqueueFuel_grows env MAX_DEPTH _ w uri depth (Nat.lt_succ_self _)

/-! ## The call tree of a visit over plain URLs -/

theorem Tree.of_same (own : Option (GoString × Int)) (lo hi : Int) (w w1 : World)
    (hv : w1.visits = w.visits) (hf : w1.fetched = w.fetched)
    (hm : ∀ u, checkUrl w.db u = true → checkUrl w1.db u = true) :
    Tree own lo hi w w1 :=
  ⟨[], [], by simp [hv], by simp [hf], by simp, by simp, by simp, by simp, by simp, by simp,
    by simp, hm⟩

theorem Tree.trans_none {lo hi : Int} {w w1 w2 : World}
    (h1 : Tree none lo hi w w1) (h2 : Tree none lo hi w1 w2) : Tree none lo hi w w2 := by
  obtain ⟨c1, r1, hv1, hf1, hs1, he1, _, hn1, ho1, hr1, hd1, hm1⟩ := h1
  obtain ⟨c2, r2, hv2, hf2, hs2, he2, _, hn2, ho2, hr2, hd2, hm2⟩ := h2
  have hin1 : ∀ e ∈ r1, e ∈ c1 := by
    intro e he
    rcases ho1 e he with h | h
    · cases h
    · exact h
  have hin2 : ∀ e ∈ r2, e ∈ c2 := by
    intro e he
    rcases ho2 e he with h | h
    · cases h
    · exact h
  refine ⟨c1 ++ c2, r1 ++ r2, by rw [hv2, hv1, List.append_assoc],
    by rw [hf2, hf1, List.append_assoc], ?_, ?_, ?_, ?_, ?_, ?_, ?_, ?_⟩
  · intro e he
    rcases List.mem_append.1 he with h | h
    · exact hs1 e h
    · exact checkUrl_false_of_mono hm1 (hs2 e h)
  · intro e he
    rcases List.mem_append.1 he with h | h
    · exact hm2 _ (he1 e h)
    · exact he2 e h
  · intro e _ o ho
    cases ho
  · rw [List.map_append, List.nodup_append]
    refine ⟨hn1, hn2, ?_⟩
    intro u hu1 hu2
    obtain ⟨e1, hm1', rfl⟩ := List.mem_map.1 hu1
    obtain ⟨e2, hm2', heq⟩ := List.mem_map.1 hu2
    have h1 := he1 e1 hm1'
    have h2 := hs2 e2 hm2'
    rw [heq, h1] at h2
    cases h2
  · intro e he
    right
    rcases List.mem_append.1 he with h | h
    · exact List.mem_append_left _ (hin1 e h)
    · exact List.mem_append_right _ (hin2 e h)
  · intro e he
    rcases List.mem_append.1 he with h | h
    · exact hr1 e h
    · exact hr2 e h
  · rw [List.map_append, List.nodup_append]
    refine ⟨hd1, hd2, ?_⟩
    intro u hu1 hu2
    obtain ⟨e1, hm1', rfl⟩ := List.mem_map.1 hu1
    obtain ⟨e2, hm2', heq⟩ := List.mem_map.1 hu2
    have h1 := he1 e1 (hin1 e1 hm1')
    have h2 := hs2 e2 (hin2 e2 hm2')
    rw [heq, h1] at h2
    cases h2
  · intro u hu
    exact hm2 u (hm1 u hu)

theorem visitLink_tree_core {U : Type} (env : Env U)
    (visit : World → GoString → Option World) (depth hi : Int)
    (hv : ∀ w l, hasQuote l = false →
      ∃ w1, visit w l = some w1 ∧ Tree (some (l, depth + 1)) (depth + 1) hi w w1)
    (w w0 : World) (link : GoString) (hq : hasQuote link = false)
    (hdb : w0.db = w.db) (hvi : w0.visits = w.visits) (hfe : w0.fetched = w.fetched) :
    ∃ w1, (if !checkUrl w0.db link then
        visit { w0 with db := insertUrl (now env w0) w0.db link,
                        visits := w0.visits ++ [(link, depth + 1)] } link
      else some w0) = some w1 ∧ Tree none (depth + 1) hi w w1 ∧
      checkUrl w1.db link = true := by
  by_cases hc : checkUrl w0.db link = true
  · simp only [hc, Bool.not_true, Bool.false_eq_true, if_false]
    exact ⟨w0, rfl, Tree.of_same _ _ _ _ _ hvi hfe (by rw [hdb]; exact fun _ h => h), hc⟩
  · have hc2 : checkUrl w0.db link = false := by simpa using hc
    simp only [hc2, Bool.not_false, if_true]
    obtain ⟨w1, hw1, c, r, hvs, hf, hs, he, hne, hn, ho, hr, hd, hm⟩ :=
      hv { w0 with db := insertUrl (now env w0) w0.db link,
                   visits := w0.visits ++ [(link, depth + 1)] } link hq
    have hself : checkUrl (insertUrl (now env w0) w0.db link) link = true :=
      checkUrl_insertUrl_self _ _ _ hq
    have hmono : ∀ u, checkUrl w.db u = true →
        checkUrl (insertUrl (now env w0) w0.db link) u = true := by
      intro u hu
      exact checkUrl_insertUrl_mono _ _ _ _ (by rw [hdb]; exact hu)
    refine ⟨w1, hw1, ⟨(link, depth + 1) :: c, r, ?_, ?_, ?_, ?_, ?_, ?_, ?_, hr, hd, ?_⟩,
      hm _ hself⟩
    · rw [hvs]
      simp [hvi]
    · rw [hf, ← hfe]
    · intro e hmem
      rcases List.mem_cons.1 hmem with h | h
      · rw [h, ← hdb]; exact hc2
      · exact checkUrl_false_of_mono hmono (hs e h)
    · intro e hmem
      rcases List.mem_cons.1 hmem with h | h
      · rw [h]; exact hm _ hself
      · exact he e h
    · intro e _ o ho2
      cases ho2
    · rw [List.map_cons, List.nodup_cons]
      refine ⟨?_, hn⟩
      intro hmem
      obtain ⟨e, hmem2, heq⟩ := List.mem_map.1 hmem
      exact hne e hmem2 (link, depth + 1) rfl heq
    · intro e hmem
      right
      rcases ho e hmem with h | h
      · have : e = (link, depth + 1) := (Option.some.inj h).symm
        rw [this]
        exact List.mem_cons_self _ _
      · exact List.mem_cons_of_mem _ h
    · intro u hu
      exact hm u (hmono u hu)

theorem visitLink_tree {U : Type} (env : Env U) (visit : World → GoString → Option World)
    (uri : GoString) (depth hi : Int)
    (hv : ∀ w l, hasQuote l = false →
      ∃ w1, visit w l = some w1 ∧ Tree (some (l, depth + 1)) (depth + 1) hi w w1)
    (w : World) (l : GoString) (hq : hasQuote (fixUrl env l uri) = false) :
    ∃ w1, visitLink env visit uri depth w l = some w1 ∧ Tree none (depth + 1) hi w w1 ∧
      checkUrl w1.db (fixUrl env l uri) = true := by
  unfold visitLink
  refine visitLink_tree_core env visit depth hi hv w _ (fixUrl env l uri) hq ?_ ?_ ?_
  · split <;> rfl
  · split <;> rfl
  · split <;> rfl

/-- The loop over the links of a page, all of them plain: its call tree, and a
row for every link when it ends. -/
theorem visitLinks_tree {U : Type} (env : Env U) (visit : World → GoString → Option World)
    (uri : GoString) (depth hi : Int)
    (hv : ∀ w l, hasQuote l = false →
      ∃ w1, visit w l = some w1 ∧ Tree (some (l, depth + 1)) (depth + 1) hi w w1) :
    ∀ (links : List GoString) (w : World),
      (∀ l ∈ links, hasQuote (fixUrl env l uri) = false) →
      ∃ w1, visitLinks env visit uri depth w links = some w1 ∧
        Tree none (depth + 1) hi w w1 ∧
        ∀ l ∈ links, checkUrl w1.db (fixUrl env l uri) = true := by
  intro links
  induction links with
  | nil =>
    intro w _
    exact ⟨w, rfl, Tree.of_same _ _ _ _ _ rfl rfl (fun _ h => h), by simp⟩
  | cons l ls ih =>
    intro w hq
    obtain ⟨w1, h1, t1, hrow⟩ :=
      visitLink_tree env visit uri depth hi hv w l (hq l (List.mem_cons_self _ _))
    obtain ⟨w2, h2, t2, hrows⟩ := ih w1 (fun x hx => hq x (List.mem_cons_of_mem _ hx))
    refine ⟨w2, ?_, Tree.trans_none t1 t2, ?_⟩
    · simp only [visitLinks, h1]
      exact h2
    · intro x hx
      rcases List.mem_cons.1 hx with e | e
      · rw [e]
        obtain ⟨_, _, _, _, _, _, _, _, _, _, _, hm⟩ := t2
        exact hm _ hrow
      · exact hrows x e

/-- The call tree of a visit that fetches `uri`: the request for `uri`
followed by the call tree of the loop over its links. -/
theorem Tree.root_then_loop (uri : GoString) (depth MAX_DEPTH : Int) (w w4 w5 w6 : World)
    (hd : depth < MAX_DEPTH)
    (hv4 : w4.visits = w.visits)
    (hf4 : w4.fetched = w.fetched ++ [(uri, depth)])
    (hu4 : checkUrl w4.db uri = true)
    (hm4 : ∀ u, checkUrl w.db u = true → checkUrl w4.db u = true)
    (hloop : Tree none (depth + 1) MAX_DEPTH w4 w5)
    (hv6 : w6.visits = w5.visits)
    (hf6 : w6.fetched = w5.fetched)
    (hm6 : ∀ u, checkUrl w5.db u = true → checkUrl w6.db u = true) :
    Tree (some (uri, depth)) depth MAX_DEPTH w w6 := by
  obtain ⟨c, r, hvs, hf, hs, he, _, hn, ho, hr, hdn, hm⟩ := hloop
  have hin : ∀ e ∈ r, e ∈ c := by
    intro e hmem
    rcases ho e hmem with h | h
    · cases h
    · exact h
  have hne : ∀ e ∈ c, e.1 ≠ uri := by
    intro e hmem heq
    have h1 := hs e hmem
    rw [heq, hu4] at h1
    cases h1
  refine ⟨c, (uri, depth) :: r, by rw [hv6, hvs, hv4], ?_, ?_, ?_, ?_, hn, ?_, ?_, ?_, ?_⟩
  · rw [hf6, hf, hf4, List.append_assoc]; rfl
  · intro e hmem
    exact checkUrl_false_of_mono hm4 (hs e hmem)
  · intro e hmem
    exact hm6 _ (he e hmem)
  · intro e hmem o ho2
    cases ho2
    exact hne e hmem
  · intro e hmem
    rcases List.mem_cons.1 hmem with h | h
    · left; rw [h]
    · right; exact hin e h
  · intro e hmem
    rcases List.mem_cons.1 hmem with h | h
    · subst h; exact ⟨le_refl _, hd⟩
    · have := hr e h
      exact ⟨by omega, this.2⟩
  · rw [List.map_cons, List.nodup_cons]
    refine ⟨?_, hdn⟩
    intro hmem
    obtain ⟨e, hmem2, heq⟩ := List.mem_map.1 hmem
    exact hne e (hin e hmem2) heq
  · intro u hu
    exact hm6 _ (hm _ (hm4 _ hu))

/-- The call tree of every visit of a plain URL on a plain web. -/
theorem enqueueFuel_tree {U : Type} (env : Env U) (MAX_DEPTH : Int) (hweb : PlainWeb env) :
    ∀ (fuel : Nat) (w : World) (uri : GoString) (depth : Int),
      (MAX_DEPTH - depth).toNat < fuel → hasQuote uri = false →
      ∃ w1, enqueueFuel env fuel w uri depth MAX_DEPTH = some w1 ∧
        Tree (some (uri, depth)) depth MAX_DEPTH w w1 := by
  intro fuel
  induction fuel with
  | zero => intro w uri depth h; omega
  | succ fuel ih =>
    intro w uri depth hfuel hq
    rcases enqueue_checks w uri depth MAX_DEPTH with hrej | ⟨hadm, hd, hmap⟩
    · rw [enqueueFuel_reject env fuel w uri depth MAX_DEPTH hrej]
      exact ⟨w, rfl, Tree.of_same _ _ _ _ _ rfl rfl (fun _ h => h)⟩
    · rw [enqueueFuel_step env fuel w uri depth MAX_DEPTH hadm hd hmap]
      have hins : ∀ (t : Nat) (db : Index) (u : GoString),
          checkUrl db u = true → checkUrl (insertUrl t db uri) u = true :=
        fun t db u hu => checkUrl_insertUrl_mono t db uri u hu
      have hself : ∀ (t : Nat) (db : Index), checkUrl (insertUrl t db uri) uri = true :=
        fun t db => checkUrl_insertUrl_self t db uri hq
      cases hresp : env.get w.fetched.length uri with
      | failed =>
        refine ⟨_, rfl, ?_⟩
        exact Tree.root_then_loop uri depth MAX_DEPTH w
          { w with db := insertUrl (now env w) w.db uri,
                   fetched := w.fetched ++ [(uri, depth)] }
          { w with db := insertUrl (now env w) w.db uri,
                   fetched := w.fetched ++ [(uri, depth)] } _ hd rfl rfl (hself _ _)
          (hins _ _) (Tree.of_same _ _ _ _ _ rfl rfl (fun _ h => h)) rfl rfl (hins _ _)
      | status code body =>
        simp only []
        split_ifs with hcode
        · obtain ⟨w5, hw5, t5, _⟩ := visitLinks_tree env
            (fun w5 link => enqueueFuel env fuel w5 link (depth + 1) MAX_DEPTH) uri depth
            MAX_DEPTH
            (fun w0 l hl => ih w0 l (depth + 1) (by omega) hl)
            (pageLinks body)
            (save_file
              { w with db := updateFilename (insertUrl (now env w) w.db uri) uri
                          (env.BASE_DIR ++ "/".toList ++ GetMD5Hash env uri),
                       fetched := w.fetched ++ [(uri, depth)] }
              body (env.BASE_DIR ++ "/".toList ++ GetMD5Hash env uri))
            (fun l hl => plain_noQuote _ (hweb.1 _ uri code body l hresp hl))
          rw [hw5]
          refine ⟨_, rfl, ?_⟩
          refine Tree.root_then_loop uri depth MAX_DEPTH w
            (save_file
              { w with db := updateFilename (insertUrl (now env w) w.db uri) uri
                          (env.BASE_DIR ++ "/".toList ++ GetMD5Hash env uri),
                       fetched := w.fetched ++ [(uri, depth)] }
              body (env.BASE_DIR ++ "/".toList ++ GetMD5Hash env uri))
            w5 _ hd rfl rfl ?_ ?_ t5 rfl rfl (hins _ _)
          · show checkUrl (updateFilename _ _ _) uri = true
            rw [checkUrl_updateFilename]; exact hself _ _
          · intro u hu
            show checkUrl (updateFilename _ _ _) u = true
            rw [checkUrl_updateFilename]; exact hins _ _ _ hu
        · refine ⟨_, rfl, ?_⟩
          exact Tree.root_then_loop uri depth MAX_DEPTH w
            { w with db := insertUrl (now env w) w.db uri,
                     fetched := w.fetched ++ [(uri, depth)] }
            { w with db := insertUrl (now env w) w.db uri,
                     fetched := w.fetched ++ [(uri, depth)] } _ hd rfl rfl (hself _ _)
            (hins _ _) (Tree.of_same _ _ _ _ _ rfl rfl (fun _ h => h)) rfl rfl (hins _ _)

/-- The call tree of `enqueue` for a plain URL on a plain web. -/
theorem enqueue_tree {U : Type} (env : Env U) (hweb : PlainWeb env) (w : World)
    (uri : GoString) (depth MAX_DEPTH : Int) (hq : hasQuote uri = false) :
    ∃ w1, enqueue env w uri depth MAX_DEPTH = some w1 ∧
      Tree (some (uri, depth)) depth MAX_DEPTH w w1 :=
  enqueueFuel_tree env MAX_DEPTH hweb _ w uri depth (Nat.lt_succ_self _) hq

/-! ## The recursion of `enqueue` and the global map -/

/-- The global map never answers `true` when it holds no `true` value. -/
theorem visitedGet_false (m : List (GoString × Bool)) (uri : GoString)
    (h : ∀ e ∈ m, e.2 = false) : visitedGet m uri = false := by
  unfold visitedGet
  cases hf : m.find? (fun e => e.1 == uri) with
  | none => rfl
  | some e => exact h e (List.mem_of_find?_eq_some hf)

/-- The function `enqueue` satisfies the recursive equation of the source: its
recursive calls are calls of `enqueue` at `depth + 1`. -/
theorem enqueue_eq {U : Type} (env : Env U) (w : World) (uri : GoString)
    (depth MAX_DEPTH : Int) :
    enqueue env w uri depth MAX_DEPTH =
      if checkUrl w.db uri && checkVisited w.db uri then some w
      else if depth ≥ MAX_DEPTH then some w
      else if !visitedGet w.visited uri then
        match env.get w.fetched.length uri with
        | .failed =>
          some (deferredInsert env uri
            { w with db := insertUrl (now env w) w.db uri,
                     fetched := w.fetched ++ [(uri, depth)] })
        | .status code body =>
          if code = 200 then
            (visitLinks env (fun w5 link => enqueue env w5 link (depth + 1) MAX_DEPTH) uri
              depth
              (save_file
                { w with db := updateFilename (insertUrl (now env w) w.db uri) uri
                            (env.BASE_DIR ++ "/".toList ++ GetMD5Hash env uri),
                         fetched := w.fetched ++ [(uri, depth)] }
                body (env.BASE_DIR ++ "/".toList ++ GetMD5Hash env uri))
              (pageLinks body)).map (deferredInsert env uri)
          else
            some (deferredInsert env uri
              { w with db := insertUrl (now env w) w.db uri,
                       fetched := w.fetched ++ [(uri, depth)] })
      else some w := by
  by_cases h1 : (checkUrl w.db uri && checkVisited w.db uri) = true
  · rw [if_pos h1]
    exact enqueueFuel_reject env _ w uri depth MAX_DEPTH (Or.inl (by simpa using h1))
  · rw [if_neg h1]
    by_cases h2 : depth ≥ MAX_DEPTH
    · rw [if_pos h2]
      exact enqueueFuel_reject env _ w uri depth MAX_DEPTH (Or.inr (Or.inl h2))
    · rw [if_neg h2]
      by_cases h3 : visitedGet w.visited uri = false
      · have hfuel : (MAX_DEPTH - (depth + 1)).toNat + 1 = (MAX_DEPTH - depth).toNat := by omega
        have hrec : (fun w5 link => enqueue env w5 link (depth + 1) MAX_DEPTH) =
            (fun w5 link =>
              enqueueFuel env (MAX_DEPTH - depth).toNat w5 link (depth + 1) MAX_DEPTH) := by
          funext w5 link
          unfold enqueue
          rw [hfuel]
        simp only [h3, Bool.not_false, if_true]
        rw [hrec]
        unfold enqueue
        exact enqueueFuel_step env _ w uri depth MAX_DEPTH (by simpa using h1) (by omega) h3
      · have h4 : visitedGet w.visited uri = true := by simpa using h3
        simp only [h4, Bool.not_true, Bool.false_eq_true, if_false]
        exact enqueueFuel_reject env _ w uri depth MAX_DEPTH (Or.inr (Or.inr h4))

theorem visitLink_visited_core {U : Type} (env : Env U)
    (visit : World → GoString → Option World) (depth : Int)
    (hv : ∀ w l w1, (∀ e ∈ w.visited, e.2 = false) → visit w l = some w1 →
      ∀ e ∈ w1.visited, e.2 = false)
    (w0 w2 : World) (link : GoString) (hw0 : ∀ e ∈ w0.visited, e.2 = false)
    (h : (if !checkUrl w0.db link then
        visit { w0 with db := insertUrl (now env w0) w0.db link,
                        visits := w0.visits ++ [(link, depth + 1)] } link
      else some w0) = some w2) :
    ∀ e ∈ w2.visited, e.2 = false := by
  by_cases hc : checkUrl w0.db link = true
  · simp only [hc, Bool.not_true, Bool.false_eq_true, if_false, Option.some.injEq] at h
    rw [← h]; exact hw0
  · have hc2 : checkUrl w0.db link = false := by simpa using hc
    simp only [hc2, Bool.not_false, if_true] at h
    exact hv { w0 with db := insertUrl (now env w0) w0.db link,
                       visits := w0.visits ++ [(link, depth + 1)] } link w2 hw0 h

theorem visitLinks_visited_false {U : Type} (env : Env U)
    (visit : World → GoString → Option World) (uri : GoString) (depth : Int)
    (hv : ∀ w l w1, (∀ e ∈ w.visited, e.2 = false) → visit w l = some w1 →
      ∀ e ∈ w1.visited, e.2 = false) :
    ∀ (links : List GoString) (w w1 : World), (∀ e ∈ w.visited, e.2 = false) →
      visitLinks env visit uri depth w links = some w1 → ∀ e ∈ w1.visited, e.2 = false := by
  intro links
  induction links with
  | nil =>
    intro w w1 hw h
    simp only [visitLinks, Option.some.injEq] at h
    rw [← h]; exact hw
  | cons l ls ih =>
    intro w w1 hw h
    simp only [visitLinks] at h
    cases h2 : visitLink env visit uri depth w l with
    | none => rw [h2] at h; cases h
    | some w2 =>
      rw [h2] at h
      refine ih w2 w1 ?_ h
      unfold visitLink at h2
      refine visitLink_visited_core env visit depth hv _ w2 _ ?_ h2
      split
      · intro e he
        rcases List.mem_cons.1 he with h3 | h3
        · rw [h3]
        · exact hw e h3
      · exact hw

/-- The global map `visited` never holds the value `true`: a visit that starts
without one ends without one. -/
theorem enqueueFuel_visited_false {U : Type} (env : Env U) (MAX_DEPTH : Int) :
    ∀ (fuel : Nat) (w : World) (uri : GoString) (depth : Int) (w1 : World),
      (∀ e ∈ w.visited, e.2 = false) →
      enqueueFuel env fuel w uri depth MAX_DEPTH = some w1 →
      ∀ e ∈ w1.visited, e.2 = false := by
  intro fuel
  induction fuel with
  | zero => intro w uri depth w1 _ h; cases h
  | succ fuel ih =>
    intro w uri depth w1 hw h
    rcases enqueue_checks w uri depth MAX_DEPTH with hrej | ⟨hadm, hd, hmap⟩
    · rw [enqueueFuel_reject env fuel w uri depth MAX_DEPTH hrej] at h
      cases h; exact hw
    · rw [enqueueFuel_step env fuel w uri depth MAX_DEPTH hadm hd hmap] at h
      cases hresp : env.get w.fetched.length uri with
      | failed =>
        rw [hresp] at h
        cases h
        exact hw
      | status code body =>
        rw [hresp] at h
        simp only [] at h
        split_ifs at h with hcode
        · rw [Option.map_eq_some'] at h
          obtain ⟨w5, h5, h6⟩ := h
          rw [← h6]
          refine visitLinks_visited_false env _ uri depth ?_ (pageLinks body) _ w5 ?_ h5
          · exact fun w0 l w2 hw0 hvis => ih w0 l (depth + 1) w2 hw0 hvis
          · exact hw
        · cases h
          exact hw

/-! ## Rows -/

/-- A row of a table with unique URLs is the row its URL selects, when the URL
holds no double quote. -/
theorem queryUrl_of_mem (db : Index) (r : Row) (hq : hasQuote r.url = false) (hu : db.unique)
    (hr : r ∈ db) : queryUrl db r.url = some r := by
  unfold queryUrl
  rw [if_neg (by simp [hq])]
  induction db with
  | nil => cases hr
  | cons a rs ih =>
    have hu2 : ((a :: rs).map Row.url).Nodup := hu
    rw [List.map_cons, List.nodup_cons] at hu2
    rcases List.mem_cons.1 hr with h | h
    · subst h
      simp [List.find?]
    · have hne : ¬ a.url = r.url := by
        intro he
        exact hu2.1 (he ▸ List.mem_map_of_mem Row.url h)
      have hb : (a.url == r.url) = false := by simpa using hne
      rw [List.find?_cons_of_neg _ (by simp [hb])]
      exact ih hu2.2 h

/-- After two calls of `insertUrl` for a URL without a double quote, every row
of that URL carries the time of the second call. -/
theorem visited_of_insertUrl_twice (t1 t2 : Nat) (db : Index) (u : GoString) (r : Row)
    (hq : hasQuote u = false)
    (hr : r ∈ insertUrl t2 (insertUrl t1 db u) u) (hurl : r.url = u) :
    r.visited = some t2 := by
  have hmem : u ∈ (insertUrl t1 db u).map Row.url :=
    (mem_urls_insertUrl t1 db u u hq).2 (Or.inl rfl)
  rw [insertUrl_of_mem t2 _ u hq hmem] at hr
  obtain ⟨r0, _, he⟩ := List.mem_map.1 hr
  by_cases h : r0.url = u
  · rw [if_pos h] at he
    rw [← he]
  · rw [if_neg h] at he
    rw [he] at h
    exact absurd hurl h

theorem not_mem_unvisitedUrls (db : Index) (u : GoString)
    (h : ∀ r ∈ db, r.url = u → r.visited.isNone = false) : u ∉ unvisitedUrls db := by
  unfold unvisitedUrls
  intro hmem
  obtain ⟨r, hr, he⟩ := List.mem_map.1 hmem
  rw [List.mem_filter] at hr
  have := h r hr.1 he
  rw [hr.2] at this
  cases this

theorem filter_url_nil (db : Index) (u : GoString) (h : u ∉ db.map Row.url) :
    db.filter (fun r => decide (r.url = u)) = [] := by
  rw [List.filter_eq_nil_iff]
  intro r hr hd
  exact h (List.mem_map.2 ⟨r, hr, by simpa using hd⟩)

/-- A table with unique URLs has one row for a URL it records. -/
theorem filter_url_length (db : Index) (u : GoString) (hu : db.unique)
    (hmem : u ∈ db.map Row.url) :
    (db.filter (fun r => decide (r.url = u))).length = 1 := by
  induction db with
  | nil => cases hmem
  | cons a rs ih =>
    have hu2 : ((a :: rs).map Row.url).Nodup := hu
    rw [List.map_cons, List.nodup_cons] at hu2
    by_cases h : a.url = u
    · have hnil := filter_url_nil rs u (h ▸ hu2.1)
      simp [List.filter, h, hnil]
    · have hm2 : u ∈ rs.map Row.url := by
        rcases List.mem_cons.1 hmem with e | e
        · exact absurd e.symm h
        · exact e
      simp only [List.filter, h, decide_False]
      exact ih hu2.2 hm2

theorem unique_insertUrl (t : Nat) (db : Index) (u : GoString) (hu : db.unique) :
    (insertUrl t db u).unique := by
  by_cases hq : hasQuote u = true
  · rw [insertUrl_quoted t db u hq]; exact hu
  · have hq2 : hasQuote u = false := by simpa using hq
    unfold Index.unique at *
    by_cases h : u ∈ db.map Row.url
    · have e : (insertUrl t db u).map Row.url = db.map Row.url := by
        rw [insertUrl_of_mem t db u hq2 h, List.map_map]
        apply List.map_congr_left
        intro r _
        by_cases h2 : r.url = u <;> simp [h2]
      rw [e]; exact hu
    · rw [insertUrl_of_not_mem t db u hq2 h, List.map_append, List.nodup_append]
      refine ⟨hu, List.nodup_singleton u, ?_⟩
      intro x hx hx2
      rw [List.map_singleton, List.mem_singleton] at hx2
      have hx3 : x = u := hx2
      exact h (hx3 ▸ hx)

/-- Without a double quote in the URL, `insertUrl` is idempotent discovery: on a
table with unique URLs two calls leave one row for the URL; the first call,
when the URL has no row, appends the row with null `visited` and `path`; the
second call changes the `visited` column of that row and nothing else. -/
theorem insertUrl_twice_plain (db : Index) (url : GoString) (t1 t2 : Nat)
    (hq : hasQuote url = false) (hu : db.unique) :
    ((insertUrl t2 (insertUrl t1 db url) url).filter (fun r => decide (r.url = url))).length = 1 ∧
    (url ∉ db.map Row.url →
      insertUrl t1 db url = db ++ [{ url := url, visited := none, path := none }]) ∧
    insertUrl t2 (insertUrl t1 db url) url =
      (insertUrl t1 db url).map
        (fun r => if r.url = url then { r with visited := some t2 } else r) := by
  have hmem : url ∈ (insertUrl t1 db url).map Row.url :=
    (mem_urls_insertUrl t1 db url url hq).2 (Or.inl rfl)
  refine ⟨?_, fun h => insertUrl_of_not_mem t1 db url hq h, insertUrl_of_mem t2 _ url hq hmem⟩
  exact filter_url_length _ url (unique_insertUrl _ _ _ (unique_insertUrl _ _ _ hu))
    ((mem_urls_insertUrl t2 _ url url hq).2 (Or.inl rfl))

/-- Without a double quote in the URL, a visited URL is not fetched again: the
call returns with the state unchanged. -/
theorem enqueue_visited_unchanged_plain {U : Type} (env : Env U) (w : World) (uri : GoString)
    (depth MAX_DEPTH : Int) (r : Row) (t : Nat) (hq : hasQuote uri = false)
    (hu : w.db.unique) (hr : r ∈ w.db) (hurl : r.url = uri) (hv : r.visited = some t) :
    enqueue env w uri depth MAX_DEPTH = some w := by
  subst hurl
  have hqr : queryUrl w.db r.url = some r := queryUrl_of_mem w.db r hq hu hr
  apply enqueueFuel_reject
  left
  simp [checkUrl, checkVisited, hqr, hv]

/-- On a plain web, a visit of a plain URL requests no URL twice, and no URL
loses its row. -/
theorem enqueue_fetches_once_plain {U : Type} (env : Env U) (hweb : PlainWeb env) (w : World)
    (uri : GoString) (depth MAX_DEPTH : Int) (hq : hasQuote uri = false) :
    ∃ w1 new, enqueue env w uri depth MAX_DEPTH = some w1 ∧
      w1.fetched = w.fetched ++ new ∧ (new.map Prod.fst).Nodup ∧
      ∀ u, checkUrl w.db u = true → checkUrl w1.db u = true := by
  obtain ⟨w1, h1, _, r, _, hf, _, _, _, _, _, _, hd, hm⟩ :=
    enqueue_tree env hweb w uri depth MAX_DEPTH hq
  exact ⟨w1, r, h1, hf, hd, hm⟩

/-- The web of the concrete runs is plain. -/
theorem demoEnv_plainWeb : PlainWeb demoEnv := by
  constructor
  · intro n u code body l hget hl
    have hg : demoGet n u = Resp.status code body := hget
    unfold demoGet at hg
    split_ifs at hg with h1 h2 h3
    · cases hg
      subst h1
      have hp : pageLinks "<a href=\"http://s/a\"> <a href=\"http://s/l\">".toList =
          ["http://s/a".toList, "http://s/l".toList] := by decide
      rw [hp] at hl
      simp only [List.mem_cons, List.mem_singleton, List.not_mem_nil, or_false] at hl
      rcases hl with e | e <;> subst e <;> decide
    · cases hg
      subst h2
      have hp : pageLinks "<a href=\"http://s/l\">".toList = ["http://s/l".toList] := by decide
      rw [hp] at hl
      simp only [List.mem_cons, List.mem_singleton, List.not_mem_nil, or_false] at hl
      subst hl
      decide
    · cases hg
      subst h3
      have hp : pageLinks "<a href=\":x\"> <a href=\"http://s/l\">".toList =
          [":x".toList, "http://s/l".toList] := by decide
      rw [hp] at hl
      simp only [List.mem_cons, List.mem_singleton, List.not_mem_nil, or_false] at hl
      rcases hl with e | e <;> subst e <;> decide
  · intro u
    rfl

/-! ## Properties of the crawl engine -/

/-- C1, defect of the code: the URL `http://s/?"` has a row with a `visited`
time, yet `enqueue` on it, at depth 0 with `MAX_DEPTH = 1`, issues a request:
the queries of `checkUrl` and `checkVisited`, built by splicing the URL
unescaped, are refused, both answer `false`, and the admission check lets the
URL through.  For a URL without a double quote the claim holds
(`enqueue_visited_unchanged_plain`). -/
theorem visited_quoted_url_is_refetched :
    (enqueue demoEnv quotedVisitedWorld quotedUrl 0 1).map (fun w => (w.fetched, w.db)) =
      some ([(quotedUrl, 0)], quotedVisitedWorld.db) := by
  decide

/-- C2, depth bound: when `depth ≥ MAX_DEPTH` the call `enqueue(uri, queue,
depth, MAX_DEPTH)` returns with the state unchanged (no request, same index),
whatever the index says about `uri`; and for every depth the call returns
and every request issued in its call tree is issued by a call whose depth
argument is below `MAX_DEPTH`. -/
theorem enqueue_depth_bound {U : Type} (env : Env U) (w : World) (uri : GoString)
    (depth MAX_DEPTH : Int) :
    (MAX_DEPTH ≤ depth → enqueue env w uri depth MAX_DEPTH = some w) ∧
    ∃ w1 new, enqueue env w uri depth MAX_DEPTH = some w1 ∧
      w1.fetched = w.fetched ++ new ∧ ∀ e ∈ new, e.2 < MAX_DEPTH := by
  refine ⟨fun h => enqueueFuel_reject env _ w uri depth MAX_DEPTH (Or.inr (Or.inl h)), ?_⟩
  obtain ⟨w1, h1, new, hf, hr⟩ := enqueue_grows env w uri depth MAX_DEPTH
  exact ⟨w1, new, h1, hf, fun e he => (hr e he).2⟩

theorem enqueue_depth_bound_witness :
    enqueue demoEnv recordedWorld "http://s/".toList 2 2 = some recordedWorld :=
  (enqueue_depth_bound demoEnv recordedWorld "http://s/".toList 2 2).1 (by decide)

/-- C3, defect of the code: two calls of `insertUrl` for the URL `http://s/?"`
on an empty table leave no row for it: the insert, built by splicing the URL
unescaped, is refused with an error that is not the uniqueness violation, and
`insertUrl` prints and returns.  For a URL without a double quote the claim
holds (`insertUrl_twice_plain`). -/
theorem insertUrl_quoted_url_no_row :
    insertUrl 5 (insertUrl 4 [] quotedUrl) quotedUrl = [] ∧
    ((insertUrl 5 (insertUrl 4 [] quotedUrl) quotedUrl).filter
      (fun r => decide (r.url = quotedUrl))).length = 0 := by
  decide

/-- C4, corrected: when a plain `uri` passes the checks of `enqueue` and its
fetch fails (a transport error, or a status other than 200), the call returns
after one request, and `uri` then has a row whose `visited` column is set,
to the time at which the call returns; `uri` is not among the URLs the resume
query selects. -/
theorem enqueue_failed_fetch_marks_visited {U : Type} (env : Env U) (w : World)
    (uri : GoString) (depth MAX_DEPTH : Int) (hp : plain uri = true)
    (hadm : ¬ (checkUrl w.db uri = true ∧ checkVisited w.db uri = true))
    (hd : depth < MAX_DEPTH) (hmap : ∀ e ∈ w.visited, e.2 = false)
    (hfail : ∀ body, env.get w.fetched.length uri ≠ .status 200 body) :
    ∃ w1, enqueue env w uri depth MAX_DEPTH = some w1 ∧
      w1.fetched = w.fetched ++ [(uri, depth)] ∧
      (∃ r ∈ w1.db, r.url = uri) ∧
      (∀ r ∈ w1.db, r.url = uri → r.visited = some (env.clock (w.fetched.length + 1))) ∧
      uri ∉ unvisitedUrls w1.db := by
  have hq := plain_noQuote uri hp
  have hstep := enqueueFuel_step env (MAX_DEPTH - depth).toNat w uri depth MAX_DEPTH hadm hd
    (visitedGet_false _ _ hmap)
  have hres : enqueue env w uri depth MAX_DEPTH =
      some (deferredInsert env uri
        { w with db := insertUrl (now env w) w.db uri,
                 fetched := w.fetched ++ [(uri, depth)] }) := by
    unfold enqueue
    rw [hstep]
    cases hg : env.get w.fetched.length uri with
    | failed => rfl
    | status code body =>
      have hc : ¬ code = 200 := by
        intro h
        exact hfail body (by rw [hg, h])
      simp only [hc, if_false]
  have hvis : ∀ r ∈ insertUrl (env.clock (w.fetched.length + 1))
      (insertUrl (now env w) w.db uri) uri, r.url = uri →
        r.visited = some (env.clock (w.fetched.length + 1)) :=
    fun r hr he => visited_of_insertUrl_twice _ _ _ _ r hq hr he
  refine ⟨_, hres, rfl, ?_, ?_, ?_⟩
  · have h2 : checkUrl (deferredInsert env uri
        { w with db := insertUrl (now env w) w.db uri,
                 fetched := w.fetched ++ [(uri, depth)] }).db uri = true :=
      checkUrl_insertUrl_self _ _ _ hq
    obtain ⟨r1, hr1, he⟩ := List.mem_map.1 ((checkUrl_iff _ _).1 h2).2
    exact ⟨r1, hr1, he⟩
  · intro r hr he
    have hr2 : r ∈ insertUrl (env.clock (w.fetched.length + 1))
        (insertUrl (now env w) w.db uri) uri := by
      simpa [deferredInsert, now] using hr
    exact hvis r hr2 he
  · apply not_mem_unvisitedUrls
    intro r hr he
    have hr2 : r ∈ insertUrl (env.clock (w.fetched.length + 1))
        (insertUrl (now env w) w.db uri) uri := by
      simpa [deferredInsert, now] using hr
    rw [hvis r hr2 he]
    rfl

theorem enqueue_failed_fetch_marks_visited_witness :
    ∃ w1, enqueue demoEnv recordedWorld "http://s/l".toList 0 2 = some w1 ∧
      w1.fetched = recordedWorld.fetched ++ [("http://s/l".toList, 0)] ∧
      (∃ r ∈ w1.db, r.url = "http://s/l".toList) ∧
      (∀ r ∈ w1.db, r.url = "http://s/l".toList →
        r.visited = some (demoEnv.clock (recordedWorld.fetched.length + 1))) ∧
      "http://s/l".toList ∉ unvisitedUrls w1.db :=
  enqueue_failed_fetch_marks_visited demoEnv recordedWorld "http://s/l".toList 0 2
    (by decide) (by decide) (by decide) (by decide)
    (fun body h => by
      have h2 : demoEnv.get recordedWorld.fetched.length "http://s/l".toList = Resp.failed := by
        decide
      rw [h2] at h
      cases h)

/-- C4 fails on the code: the fetch of `http://s/zz` fails, and when
`enqueue` returns the row of that URL has a `visited` time, so the resume
query selects nothing. -/
theorem failed_fetch_is_marked_visited :
    (main demoEnv "http://s/zz".toList 2).map
        (fun w => (w.fetched, w.db, unvisitedUrls w.db)) =
      some ([("http://s/zz".toList, 0)],
            [{ url := "http://s/zz".toList, visited := some 2, path := none }], []) := by
  decide

/-- C5, corrected: on a plain web, in the call tree of `enqueue` for a plain
URL, no link gets two recursive calls, and every request other than that of
the call itself is issued by the recursive call made for its URL, at the
depth of that call.  So a link whose recursive call is made at depth
`MAX_DEPTH` (it is found first on a page fetched at depth `MAX_DEPTH - 1`, and
the depth check rejects the call) is requested nowhere in the call tree, at
whatever depth it is found again. -/
theorem enqueue_one_call_per_link {U : Type} (env : Env U) (hweb : PlainWeb env)
    (w : World) (uri : GoString) (depth MAX_DEPTH : Int) (hp : plain uri = true) :
    ∃ w1 calls reqs, enqueue env w uri depth MAX_DEPTH = some w1 ∧
      w1.visits = w.visits ++ calls ∧ w1.fetched = w.fetched ++ reqs ∧
      (calls.map Prod.fst).Nodup ∧
      (∀ e ∈ reqs, e = (uri, depth) ∨ e ∈ calls) ∧
      ∀ L, (L, MAX_DEPTH) ∈ calls → ∀ e ∈ reqs, e.1 ≠ L := by
  obtain ⟨w1, h1, c, r, hv, hf, _, _, hne, hn, ho, hr, _, _⟩ :=
    enqueue_tree env hweb w uri depth MAX_DEPTH (plain_noQuote uri hp)
  refine ⟨w1, c, r, h1, hv, hf, hn, ?_, ?_⟩
  · intro e he
    rcases ho e he with h | h
    · left; exact (Option.some.inj h).symm
    · right; exact h
  · intro L hL e he heq
    rcases ho e he with h | h
    · have hown : e = (uri, depth) := (Option.some.inj h).symm
      have : L = uri := by rw [← heq, hown]
      exact hne (L, MAX_DEPTH) hL (uri, depth) rfl this
    · have hsame : e = (L, MAX_DEPTH) :=
        List.inj_on_of_nodup_map hn h hL heq
      have := (hr e he).2
      rw [hsame] at this
      simp at this

theorem enqueue_one_call_per_link_witness :
    ∃ w1 calls reqs, enqueue demoEnv seedWorld "http://s/".toList 0 2 = some w1 ∧
      w1.visits = seedWorld.visits ++ calls ∧ w1.fetched = seedWorld.fetched ++ reqs ∧
      (calls.map Prod.fst).Nodup ∧
      (∀ e ∈ reqs, e = ("http://s/".toList, 0) ∨ e ∈ calls) ∧
      ∀ L, (L, 2) ∈ calls → ∀ e ∈ reqs, e.1 ≠ L :=
  enqueue_one_call_per_link demoEnv demoEnv_plainWeb seedWorld "http://s/".toList 0 2
    (by decide)

/-- C5 fails on the code: with `MAX_DEPTH = 2`, the link `http://s/l` is found
first on `http://s/a`, fetched at depth 1, and its visit at depth 2 is
rejected; it is then found on `http://s/`, fetched at depth 0, and is not
fetched at depth 1: the run makes two recursive calls, requests the two pages
only and leaves `http://s/l` unvisited. -/
theorem shallower_path_not_crawled :
    (main demoEnv "http://s/".toList 2).map
        (fun w => (w.fetched, w.visits, unvisitedUrls w.db)) =
      some ([("http://s/".toList, 0), ("http://s/a".toList, 1)],
            [("http://s/a".toList, 1), ("http://s/l".toList, 2)],
            ["http://s/l".toList]) := by
  decide

/-- C8, corrected: a reference that `fixUrl` fails to resolve is not dropped.
On a plain web, when the page of a plain `uri` is fetched with status 200 and
one of its references fails to resolve, the call returns with a row for `uri`
and a row for the empty string, the failure result of `fixUrl`, in the index;
and every reference of the page, in the form `fixUrl` returns it, has a row:
the other links are processed. -/
theorem enqueue_records_failed_reference {U : Type} (env : Env U) (hweb : PlainWeb env)
    (w : World) (uri : GoString) (depth MAX_DEPTH : Int) (body r : GoString)
    (hp : plain uri = true)
    (hadm : ¬ (checkUrl w.db uri = true ∧ checkVisited w.db uri = true))
    (hd : depth < MAX_DEPTH) (hmap : ∀ e ∈ w.visited, e.2 = false)
    (hget : env.get w.fetched.length uri = .status 200 body)
    (hr : r ∈ pageLinks body) (hfail : fixUrl env r uri = []) :
    ∃ w1, enqueue env w uri depth MAX_DEPTH = some w1 ∧
      checkUrl w1.db uri = true ∧ checkUrl w1.db [] = true ∧
      ∀ l ∈ pageLinks body, checkUrl w1.db (fixUrl env l uri) = true := by
  have hq := plain_noQuote uri hp
  have hstep := enqueueFuel_step env (MAX_DEPTH - depth).toNat w uri depth MAX_DEPTH hadm hd
    (visitedGet_false _ _ hmap)
  rw [hget] at hstep
  simp only [if_true] at hstep
  obtain ⟨w5, h5, _, hrec⟩ := visitLinks_tree env
    (fun w5 link => enqueueFuel env (MAX_DEPTH - depth).toNat w5 link (depth + 1) MAX_DEPTH)
    uri depth MAX_DEPTH
    (fun w0 l hl => enqueueFuel_tree env MAX_DEPTH hweb _ w0 l (depth + 1) (by omega) hl)
    (pageLinks body)
    (save_file
      { w with db := updateFilename (insertUrl (now env w) w.db uri) uri
                  (env.BASE_DIR ++ "/".toList ++ GetMD5Hash env uri),
               fetched := w.fetched ++ [(uri, depth)] }
      body (env.BASE_DIR ++ "/".toList ++ GetMD5Hash env uri))
    (fun l hl => plain_noQuote _ (hweb.1 _ uri 200 body l hget hl))
  have hall : ∀ l ∈ pageLinks body,
      checkUrl (deferredInsert env uri w5).db (fixUrl env l uri) = true :=
    fun l hl => checkUrl_insertUrl_mono _ _ _ _ (hrec l hl)
  refine ⟨deferredInsert env uri w5, ?_, checkUrl_insertUrl_self _ _ _ hq, ?_, hall⟩
  · unfold enqueue
    rw [hstep, h5]
    rfl
  · have := hall r hr
    rw [hfail] at this
    exact this

theorem enqueue_records_failed_reference_witness :
    ∃ w1, enqueue demoEnv recordedWorld "http://s/bad".toList 0 2 = some w1 ∧
      checkUrl w1.db "http://s/bad".toList = true ∧ checkUrl w1.db [] = true ∧
      ∀ l ∈ pageLinks "<a href=\":x\"> <a href=\"http://s/l\">".toList,
        checkUrl w1.db (fixUrl demoEnv l "http://s/bad".toList) = true :=
  enqueue_records_failed_reference demoEnv demoEnv_plainWeb recordedWorld
    "http://s/bad".toList 0 2
    "<a href=\":x\"> <a href=\"http://s/l\">".toList ":x".toList
    (by decide) (by decide) (by decide) (by decide) (by decide) (by decide) (by decide)

/-- C8 fails on the code: the page `http://s/bad` holds the reference `:x`,
which does not parse; the run creates a row for the empty string, visits it at
depth 1 and issues a request for it, and then goes on to the next link. -/
theorem failed_reference_is_visited :
    (main demoEnv "http://s/bad".toList 2).map
        (fun w => (w.db.map Row.url, w.fetched)) =
      some (["http://s/bad".toList, [], "http://s/l".toList],
            [("http://s/bad".toList, 0), ([], 1), ("http://s/l".toList, 1)]) := by
  decide

/-- C9, corrected: with `MAX_DEPTH = 0` the run of `main` on a seed over an
empty index returns without a request, not even for the seed: the list of the
requests issued is empty. -/
theorem main_depth_zero {U : Type} (env : Env U) (seed : GoString) :
    (main env seed 0).map World.fetched = some [] := by
  unfold main enqueue
  rw [enqueueFuel_reject env _ _ seed 0 0 (Or.inr (Or.inl (le_refl _)))]
  rfl

/-- C9 fails on the code: with `MAX_DEPTH = 0` the seed `http://s/` is not
fetched; the list of the URLs requested is empty. -/
theorem depth_zero_fetches_nothing :
    (main demoEnv "http://s/".toList 0).map (fun w => w.fetched.map Prod.fst) = some [] := by
  decide

/-- C10, defect of the code: the page `http://s/q` holds the link
`http://s/?"` twice; with `MAX_DEPTH = 2` the run requests that URL twice in
one call tree.  The statements of `checkUrl` and `insertUrl`, built by
splicing the URL unescaped, are refused, so the URL never gets a row and each
occurrence is visited.  On a plain web the claim holds
(`enqueue_fetches_once_plain`). -/
theorem quoted_link_is_fetched_twice :
    (main quoteEnv "http://s/q".toList 2).map (fun w => (w.fetched, w.db.map Row.url)) =
      some ([("http://s/q".toList, 0), (quotedUrl, 1), (quotedUrl, 1)],
            ["http://s/q".toList]) := by
  decide

/-! ## Properties of the link extractor -/

/-- The value read after the name in `=` quote `v` quote `post`. -/
theorem quotedValue_wellFormed (q : Char) (v post : GoString)
    (hq : q = dquote ∨ q = squote) (hv : 2 ≤ v.length) (hqv : q ∉ v) :
    quotedValue ('=' :: q :: (v ++ q :: post)) = some v ∧
      2 ≤ (trim ('=' :: q :: (v ++ q :: post))).length := by
  have hcut := quote_not_cut q hq
  have hd : ('=' :: q :: (v ++ q :: post)).dropWhile isCut = q :: (v ++ q :: post) := by
    rw [List.dropWhile_cons_of_pos (by decide), List.dropWhile_cons_of_neg (by simp [hcut])]
  have hm : q ∈ v ++ q :: post := by simp
  have htw : (v ++ q :: post).takeWhile (fun c => c != q) = v := by
    rw [List.takeWhile_append]
    have hall : v.takeWhile (fun c => c != q) = v := by
      rw [List.takeWhile_eq_self_iff]
      intro x hx
      have : x ≠ q := fun e => hqv (e ▸ hx)
      simpa using this
    rw [hall]
    simp [List.takeWhile]
  constructor
  · unfold quotedValue
    rw [hd]
    simp only [htw]
    rw [if_pos ⟨hq, hm, hv⟩]
  · rw [trim_eq, hd]
    have h1 : 0 < (stripRight (v ++ q :: post)).length :=
      List.length_pos_of_mem (mem_stripRight _ q hcut hm)
    simp only [List.length_cons]
    omega

/-- C6, link extraction of a well-formed occurrence: for a non-empty
attribute name `attr`, a quote `q` (double or single) and a value `v` of at
least two bytes without `q`, when `attr` occurs in the body
`pre ++ attr ++ "=" ++ q ++ v ++ q ++ post` at the position after `pre` and
nowhere else, `get_attr(body, attr)` is the list `[v]`. -/
theorem get_attr_wellFormed (pre post attr v : GoString) (q : Char)
    (hattr : attr ≠ []) (hq : q = dquote ∨ q = squote) (hv : 2 ≤ v.length) (hqv : q ∉ v)
    (honly : ∀ i, attr.isPrefixOf
        ((pre ++ attr ++ ['='] ++ [q] ++ v ++ [q] ++ post).drop i) = true → i = pre.length) :
    get_attr (pre ++ attr ++ ['='] ++ [q] ++ v ++ [q] ++ post) attr = [v] := by
  have e : pre ++ attr ++ ['='] ++ [q] ++ v ++ [q] ++ post =
      pre ++ attr ++ ('=' :: q :: (v ++ q :: post)) := by simp
  rw [e] at honly ⊢
  obtain ⟨h1, h2⟩ := quotedValue_wellFormed q v post hq hv hqv
  unfold get_attr
  rw [split_single attr pre _ hattr honly]
  simp only [List.drop_succ_cons, List.drop_zero]
  rw [get_attr_loop_eq _ [] (by
    intro seg hs
    rw [List.mem_singleton] at hs
    rw [hs]; exact h2)]
  simp [List.filterMap, h1]

theorem get_attr_wellFormed_witness :
    get_attr ([] ++ "href".toList ++ ['='] ++ [dquote] ++ "http://a/b".toList ++ [dquote]
        ++ " src='img.png'".toList) "href".toList = ["http://a/b".toList] ∧
    get_attr ("href=\"http://a/b\" ".toList ++ "src".toList ++ ['='] ++ [squote]
        ++ "img.png".toList ++ [squote] ++ []) "src".toList = ["img.png".toList] :=
  ⟨get_attr_wellFormed [] " src='img.png'".toList "href".toList "http://a/b".toList dquote
      (by decide) (by decide) (by decide) (by decide)
      (by
        intro i hi
        by_contra hne
        have hlt : i < 32 := by
          by_contra hge
          rw [List.drop_of_length_le (by simp; omega)] at hi
          simp [List.isPrefixOf] at hi
        interval_cases i <;> first | exact hne rfl | exact absurd hi (by decide)),
   get_attr_wellFormed "href=\"http://a/b\" ".toList [] "src".toList "img.png".toList squote
      (by decide) (by decide) (by decide) (by decide)
      (by
        intro i hi
        by_contra hne
        have hlt : i < 32 := by
          by_contra hge
          rw [List.drop_of_length_le (by simp; omega)] at hi
          simp [List.isPrefixOf] at hi
        interval_cases i <;> first | exact hne rfl | exact absurd hi (by decide))⟩

/-- C7, corrected: for a non-empty `attr`, `strings.Split(body, attr)` returns
the pieces of the scan of `body` for the occurrences of `attr` from left to
right without overlap, which are unique; and when no value is lost to the
`break` of the loop (no piece with a value comes after a piece that is shorter
than two bytes once trimmed), `get_attr(body, attr)` is, in the order of the
occurrences, the list of the values `quotedValue` reads in the pieces after
the occurrences: for each piece that starts, after any spaces and equals
signs, with a single or double quote and holds a later quote of the same kind
at least two bytes further, the text between the two quotes; nothing for any
other piece. -/
theorem get_attr_scan (body attr : GoString) (hattr : attr ≠ []) :
    Scan attr body (split body attr) ∧
    (∀ qs, Scan attr body qs → qs = split body attr) ∧
    (noValueAfterShort ((split body attr).drop 1) = true →
      get_attr body attr = ((split body attr).drop 1).filterMap quotedValue) := by
  have hs := scan_split attr body hattr
  refine ⟨hs, fun qs hq => Scan.unique attr body _ hs qs hq, ?_⟩
  intro hk
  unfold get_attr
  rw [get_attr_loop_exact, filterMap_noValueAfterShort _ hk]
  simp

theorem get_attr_scan_witness :
    get_attr "<a href=\"http://a/b\">href".toList "href".toList =
      ((split "<a href=\"http://a/b\">href".toList "href".toList).drop 1).filterMap
        quotedValue :=
  (get_attr_scan "<a href=\"http://a/b\">href".toList "href".toList (by decide)).2.2
    (by decide)

/-- C7 fails on the code: a quoted value of one byte gives no result, and a
quoted value that follows the name without `=` gives a result. -/
theorem get_attr_not_every_occurrence :
    get_attr "href=\"a\"".toList "href".toList = [] ∧
    get_attr "href\"ab\"".toList "href".toList = ["ab".toList] := by
  decide

/-- The `break` of `get_attr`: an occurrence followed by a blank alone ends the
scan, and the value of the well-formed occurrence after it is not returned,
although the function is documented to get all attribute values. -/
theorem get_attr_break_drops_value :
    get_attr "href href=\"http://a/b\"".toList "href".toList = [] ∧
    ((split "href href=\"http://a/b\"".toList "href".toList).drop 1).filterMap quotedValue =
      ["http://a/b".toList] := by
  decide

end Crawler
